import Mathlib

/-!
# A verification model of the `bkv` on-disk key-value store

This file gives a shallow embedding, in Lean 4, of the persistence engine of
the `bkv` repository: the 64-bit logical pointer codec (`meta_types.h` /
`meta.h`), the chunked bitmap allocators of the node file and the data file
(`meta.h`), the streaming data iterator, and the disk-resident B+tree
(`bptree.h`).  Machine integers are modelled as `Nat` with explicit masks
where the C code relies on wrap-around or truncation; byte strings are
`List Nat`; the mutable on-disk state is passed explicitly through the
embedded operations.  Fallible code returns `Option` (`none` models both a
`bassert`-triggered `abort` and an out-of-fuel recursion).
-/

namespace Bkv

/-- Byte strings (C `View` / `data_t`): lists of byte values. -/
abbrev Bytes := List Nat

/-! ## Constants from `meta_types.h` -/

def k_length_bits : Nat := 24
def k_chunk_bits : Nat := 11
def k_data_bits : Nat := 29
def k_max_kv_sz : Nat := 2 ^ k_length_bits - 1
def k_sys_page_sz : Nat := 4096
def k_index_page_sz : Nat := k_sys_page_sz
def k_data_page_sz : Nat := 64
def k_chunk_sz : Nat := 2 ^ k_data_bits
def k_nr_index_chunk : Nat := 2 ^ 10
def k_nr_data_chunk : Nat := 2 ^ k_chunk_bits
def k_index_bitmap_bits : Nat := k_chunk_sz / k_index_page_sz
def k_index_page_reserved : Nat := k_index_bitmap_bits / 8 / k_index_page_sz
def k_index_chunk_hdr_sz : Nat := k_index_page_reserved * k_index_page_sz
def k_data_bitmap_bits : Nat := k_chunk_sz / k_data_page_sz
def k_data_page_reserved : Nat := k_data_bitmap_bits / 8 / k_data_page_sz
def k_data_chunk_hdr_sz : Nat := k_data_page_reserved * k_data_page_sz
def k_index_page_per_chunk : Nat := k_index_bitmap_bits
def k_data_page_per_chunk : Nat := k_data_bitmap_bits

/-- `sizeof(disk_index_hdr)` (4136 bytes) rounded up to a system page.
The C struct is `{u64 magic; u64 nr_kv; u64 file_size; u32 last_chunk;
u64 root; u32 chunk[1024]}` with natural alignment, hence 4136 bytes. -/
def k_index_hdr_sz : Nat := 8192

/-- `sizeof(disk_data_hdr)` (8216 bytes) rounded up to a system page.
The C struct is `{u64 magic; u64 file_size; u64 last_chunk;
u32 chunk[2048]}`, hence 8216 bytes. -/
def k_data_hdr_sz : Nat := 12288

/-- `k_bpt_order` = `(k_index_page_sz - sizeof(node_t)) / sizeof(kv_t) - 1`,
with `sizeof(node_t) = 48` and `sizeof(kv_t) = 16`. -/
def k_bpt_order : Nat := (k_index_page_sz - 48) / 16 - 1

/-- The all-ones 64-bit pointer `ptr_null` (`(ptr_t)-1`). -/
def ptrNull : Nat := 2 ^ 64 - 1

/-! ## Pointer codec (`meta.h`) -/

/-- `ptr_encode(len, ck, id)`: `tmp = len; tmp <<= 11; tmp |= ck;
tmp <<= 29; tmp |= id` on a `uint64_t`. -/
def ptr_encode (len ck id : Nat) : Nat :=
  ((((len <<< k_chunk_bits) ||| ck) <<< k_data_bits) ||| id) % 2 ^ 64

/-- `ptr_chunk(id) = (id >> 29) & ((1 << 11) - 1)`. -/
def ptr_chunk (id : Nat) : Nat :=
  (id >>> k_data_bits) &&& (2 ^ k_chunk_bits - 1)

/-- `ptr_length(id) = (id >> 40) & ((1 << 24) - 1)`. -/
def ptr_length (id : Nat) : Nat :=
  (id >>> (k_chunk_bits + k_data_bits)) &&& (2 ^ k_length_bits - 1)

/-- `ptr_id(id) = id & ((1 << 29) - 1)`. -/
def ptr_id (id : Nat) : Nat :=
  id &&& (2 ^ k_data_bits - 1)

/-- `node_file_off`: byte offset of an index page in the node file. -/
def node_file_off (id : Nat) : Nat :=
  k_index_hdr_sz + ptr_chunk id * k_chunk_sz + ptr_id id * k_index_page_sz

/-- `data_file_off`: byte offset of a data page in the data file. -/
def data_file_off (id : Nat) : Nat :=
  k_data_hdr_sz + ptr_chunk id * k_chunk_sz + ptr_id id * k_data_page_sz

/-- `size_to_page(n) = (n >> 6) + !!(n & 63)`: number of 64-byte data pages
covering `n` bytes. -/
def size_to_page (n : Nat) : Nat :=
  (n >>> 6) + (if n &&& (k_data_page_sz - 1) ≠ 0 then 1 else 0)

/-- `data_per_sys_page = k_sys_page_sz / k_data_page_sz` (= 64). -/
def data_per_sys_page : Nat := k_sys_page_sz / k_data_page_sz

/-- `build_cache_key(ck, id) = (ck << 32) | (id / data_per_sys_page)`. -/
def build_cache_key (ck id : Nat) : Nat :=
  ((ck <<< 32) ||| (id / data_per_sys_page)) % 2 ^ 64

/-- `in_sys_page_off(o) = (o & (data_per_sys_page - 1)) * k_data_page_sz`:
byte offset of data page `o` inside its system page. -/
def in_sys_page_off (dataPageOff : Nat) : Nat :=
  (dataPageOff &&& (data_per_sys_page - 1)) * k_data_page_sz

/-- `round_down(size, align) = size & ~(align - 1)` for a power-of-two
`align`; on `Nat` this is `size - size % align`. -/
def round_down (size align : Nat) : Nat :=
  size - size % align

/-! ### Codec arithmetic lemmas -/

theorem shiftLeft_lor_eq_add (a b k : Nat) (h : b < 2 ^ k) :
    (a <<< k) ||| b = a * 2 ^ k + b := by
  apply Nat.eq_of_testBit_eq
  intro i
  rw [Nat.testBit_lor, Nat.testBit_shiftLeft, Nat.mul_comm,
    Nat.testBit_mul_pow_two_add a h]
  rcases Nat.lt_or_ge i k with hi | hi
  · simp [hi, Nat.not_le_of_lt hi]
  · simp [hi, Nat.not_lt_of_le hi,
      Nat.testBit_lt_two_pow
        (Nat.lt_of_lt_of_le h (Nat.pow_le_pow_right (by omega) hi))]

theorem and_mask_eq_mod (n k : Nat) : n &&& (2 ^ k - 1) = n % 2 ^ k := by
  apply Nat.eq_of_testBit_eq
  intro i
  rw [Nat.testBit_land, Nat.testBit_mod_two_pow, Nat.testBit_two_pow_sub_one,
    Bool.and_comm]

theorem ptr_encode_eq {len ck id : Nat} (hl : len < 2 ^ 24) (hc : ck < 2 ^ 11)
    (hi : id < 2 ^ 29) :
    ptr_encode len ck id = (len * 2 ^ 11 + ck) * 2 ^ 29 + id := by
  have h1 : (len <<< k_chunk_bits) ||| ck = len * 2 ^ 11 + ck :=
    shiftLeft_lor_eq_add len ck 11 hc
  have h2 : ((len * 2 ^ 11 + ck) <<< k_data_bits) ||| id
      = (len * 2 ^ 11 + ck) * 2 ^ 29 + id :=
    shiftLeft_lor_eq_add _ id 29 hi
  show ((((len <<< k_chunk_bits) ||| ck) <<< k_data_bits) ||| id) % 2 ^ 64
      = _
  rw [h1]
  rw [show k_data_bits = 29 from rfl] at h2 ⊢
  rw [h2]
  apply Nat.mod_eq_of_lt
  have : len * 2 ^ 11 + ck < 2 ^ 35 := by omega
  calc (len * 2 ^ 11 + ck) * 2 ^ 29 + id
      < (2 ^ 35) * 2 ^ 29 := by
        have := Nat.succ_le_of_lt this
        nlinarith [hi]
    _ ≤ 2 ^ 64 := by norm_num

theorem ptr_id_encode {len ck id : Nat} (hl : len < 2 ^ 24) (hc : ck < 2 ^ 11)
    (hi : id < 2 ^ 29) : ptr_id (ptr_encode len ck id) = id := by
  rw [ptr_encode_eq hl hc hi, ptr_id, and_mask_eq_mod]
  show ((len * 2 ^ 11 + ck) * 2 ^ 29 + id) % 2 ^ 29 = id
  omega

theorem ptr_chunk_encode {len ck id : Nat} (hl : len < 2 ^ 24)
    (hc : ck < 2 ^ 11) (hi : id < 2 ^ 29) :
    ptr_chunk (ptr_encode len ck id) = ck := by
  rw [ptr_encode_eq hl hc hi, ptr_chunk, and_mask_eq_mod,
    Nat.shiftRight_eq_div_pow]
  show ((len * 2 ^ 11 + ck) * 2 ^ 29 + id) / 2 ^ 29 % 2 ^ 11 = ck
  omega

theorem ptr_length_encode {len ck id : Nat} (hl : len < 2 ^ 24)
    (hc : ck < 2 ^ 11) (hi : id < 2 ^ 29) :
    ptr_length (ptr_encode len ck id) = len := by
  rw [ptr_encode_eq hl hc hi, ptr_length, and_mask_eq_mod,
    Nat.shiftRight_eq_div_pow]
  show ((len * 2 ^ 11 + ck) * 2 ^ 29 + id) / 2 ^ 40 % 2 ^ 24 = len
  omega

/-! ## The byte-string comparator (`View::operator<=>`, `BytewiseComparator`)

`View::operator<=>` does `memcmp` over the common prefix and falls back to
comparing lengths; `BytewiseComparator::compare` maps that ordering to
`-1 / 0 / 1`.  On byte lists this is exactly the following lexicographic
comparison. -/

def viewCompare : Bytes → Bytes → Int
  | [], [] => 0
  | [], _ :: _ => -1
  | _ :: _, [] => 1
  | a :: as, b :: bs =>
    if a < b then -1 else if b < a then 1 else viewCompare as bs

theorem viewCompare_self (a : Bytes) : viewCompare a a = 0 := by
  induction a with
  | nil => rfl
  | cons x xs ih => simp [viewCompare, ih]

theorem viewCompare_eq_zero_iff {a b : Bytes} : viewCompare a b = 0 ↔ a = b := by
  constructor
  · intro h
    induction a generalizing b with
    | nil => cases b with
      | nil => rfl
      | cons y ys => simp [viewCompare] at h
    | cons x xs ih =>
      cases b with
      | nil => simp [viewCompare] at h
      | cons y ys =>
        simp only [viewCompare] at h
        split at h
        · exact absurd h (by norm_num)
        · split at h
          · exact absurd h (by norm_num)
          · have hxy : x = y := by omega
            rw [hxy, ih h]
  · rintro rfl; exact viewCompare_self a

theorem viewCompare_neg (a b : Bytes) : viewCompare b a = -viewCompare a b := by
  induction a generalizing b with
  | nil => cases b <;> rfl
  | cons x xs ih =>
    cases b with
    | nil => rfl
    | cons y ys =>
      simp only [viewCompare]
      rcases Nat.lt_trichotomy x y with h | h | h
      · simp [h, Nat.lt_asymm h, Nat.ne_of_lt h]
      · subst h; simp [Nat.lt_irrefl, ih]
      · simp [h, Nat.lt_asymm h, Nat.ne_of_gt h]

theorem viewCompare_trans_lt {a b c : Bytes} (hab : viewCompare a b < 0)
    (hbc : viewCompare b c < 0) : viewCompare a c < 0 := by
  induction a generalizing b c with
  | nil =>
    cases b with
    | nil => simp [viewCompare] at hab
    | cons y ys =>
      cases c with
      | nil => simp [viewCompare] at hbc
      | cons z zs => simp [viewCompare]
  | cons x xs ih =>
    cases b with
    | nil => simp [viewCompare] at hab
    | cons y ys =>
      cases c with
      | nil => simp [viewCompare] at hbc
      | cons z zs =>
        simp only [viewCompare] at hab hbc ⊢
        split_ifs at hab hbc ⊢ <;> first | omega | exact ih hab hbc

theorem viewCompare_zero_trans {a b c : Bytes} (hab : viewCompare a b = 0)
    (hbc : viewCompare b c < 0) : viewCompare a c < 0 := by
  rw [viewCompare_eq_zero_iff] at hab
  subst hab; exact hbc

/-! ## The bitmap chunk (`class Chunk` in `meta.h`)

A chunk's allocation bitmap, backed by a mapped region.  `bits` is the bit
array (`bits_`), `off` the reserved prefix (`off_`), `total` the number of
bits (`total_bits_`), `last` the rotating allocation cursor (`last_`). -/

structure ChunkSt where
  off : Nat
  total : Nat
  bits : Nat → Bool
  last : Nat

/-- The scan loop of `Chunk::get`:
```
auto r = last_; auto l = r;
for (ptr_t i = off_; i < total_bits_; ++i, ++r) {
  if (r == total_bits_) { r = off_; l = r; }
  if (test(r)) { l = r + 1; continue; }
  if (r - l + 1 == n) { last_ = r; return l; }
}
return ptr_null;
```
The loop body runs `total - off` times; `fuel` counts the remaining
iterations.  On success the result is `(l, r)`: the start of the run and
the final cursor (stored into `last_`). -/
def chunkGetGo (bits : Nat → Bool) (off total n : Nat) :
    Nat → Nat → Nat → Option (Nat × Nat)
  | 0, _, _ => none
  | fuel + 1, r, l =>
    if r = total then
      -- crossing the wrap: `r = off; l = r` and then the shared body
      if bits off then chunkGetGo bits off total n fuel (off + 1) (off + 1)
      else if off - off + 1 = n then some (off, off)
      else chunkGetGo bits off total n fuel (off + 1) off
    else
      if bits r then chunkGetGo bits off total n fuel (r + 1) (r + 1)
      else if r - l + 1 = n then some (l, r)
      else chunkGetGo bits off total n fuel (r + 1) l

/-- `Chunk::get(n)`: allocate `n` consecutive clear bits; `none` models the
`ptr_null` return.  On success the cursor `last_` is updated to the end of
the run. -/
def ChunkSt.get (c : ChunkSt) (n : Nat) : Option (Nat × ChunkSt) :=
  match chunkGetGo c.bits c.off c.total n (c.total - c.off) c.last c.last with
  | none => none
  | some (l, r) => some (l, { c with last := r })

/-- `Chunk::test(id)`. -/
def ChunkSt.test (c : ChunkSt) (id : Nat) : Bool := c.bits id

/-- `Chunk::mask(p, n)`: set bits `p, p+1, …, p+n-1`. -/
def ChunkSt.mask (c : ChunkSt) (p n : Nat) : ChunkSt :=
  { c with bits := fun i => if p ≤ i ∧ i < p + n then true else c.bits i }

/-- `Chunk::unmask(p, n)`: clear bits `p, p+1, …, p+n-1`. -/
def ChunkSt.unmask (c : ChunkSt) (p n : Nat) : ChunkSt :=
  { c with bits := fun i => if p ≤ i ∧ i < p + n then false else c.bits i }

/-- Specification of the scan loop: a successful `chunkGetGo` returns a run
of `n` clear bits inside `[off, total)`, together with its last index. -/
theorem chunkGetGo_spec {bits : Nat → Bool} {off total n : Nat}
    (hot : off < total) :
    ∀ fuel r l lr rr, off ≤ l → l ≤ r → r ≤ total →
    (∀ i, l ≤ i → i < r → bits i = false) →
    chunkGetGo bits off total n fuel r l = some (lr, rr) →
    off ≤ lr ∧ lr + n = rr + 1 ∧ 0 < n ∧ rr < total ∧
      (∀ i, lr ≤ i → i ≤ rr → bits i = false) := by
  intro fuel
  induction fuel with
  | zero => intro r l lr rr _ _ _ _ h; simp [chunkGetGo] at h
  | succ fuel ih =>
    intro r l lr rr hol hlr hrt hrun h
    rw [chunkGetGo] at h
    by_cases hwrap : r = total
    · rw [if_pos hwrap] at h
      by_cases hb : bits off = true
      · rw [if_pos hb] at h
        exact ih (off + 1) (off + 1) lr rr (by omega) (by omega) (by omega)
          (by omega) h
      · rw [if_neg hb] at h
        have hb' : bits off = false := by
          revert hb; cases bits off <;> simp
        by_cases hn : off - off + 1 = n
        · rw [if_pos hn] at h
          simp only [Option.some.injEq, Prod.mk.injEq] at h
          obtain ⟨h1, h2⟩ := h
          subst h1; subst h2
          refine ⟨le_refl _, by omega, by omega, hot, ?_⟩
          intro i h1 h2
          have : i = off := by omega
          subst this
          exact hb'
        · rw [if_neg hn] at h
          refine ih (off + 1) off lr rr (le_refl _) (by omega) (by omega) ?_ h
          intro i h1 h2
          have hio : i = off := by omega
          subst hio
          exact hb'
    · rw [if_neg hwrap] at h
      have hrt' : r < total := by omega
      by_cases hb : bits r = true
      · rw [if_pos hb] at h
        exact ih (r + 1) (r + 1) lr rr (by omega) (by omega) (by omega)
          (by omega) h
      · rw [if_neg hb] at h
        have hb' : bits r = false := by
          revert hb; cases bits r <;> simp
        by_cases hn : r - l + 1 = n
        · rw [if_pos hn] at h
          simp only [Option.some.injEq, Prod.mk.injEq] at h
          obtain ⟨h1, h2⟩ := h
          subst h1; subst h2
          refine ⟨hol, by omega, by omega, hrt', ?_⟩
          intro i h1 h2
          rcases Nat.lt_or_ge i r with h3 | h3
          · exact hrun i h1 h3
          · have : i = r := by omega
            subst this
            exact hb'
        · rw [if_neg hn] at h
          refine ih (r + 1) l lr rr hol (by omega) (by omega) ?_ h
          intro i h1 h2
          rcases Nat.lt_or_ge i r with h3 | h3
          · exact hrun i h1 h3
          · have hir : i = r := by omega
            subst hir
            exact hb'

/-- Specification of `Chunk::get`: a successful allocation is a run of `n`
clear bits inside `[off, total)`, and only the cursor changes. -/
theorem ChunkSt.get_spec {c : ChunkSt} {n l : Nat} {c' : ChunkSt}
    (hot : c.off < c.total) (hlast₁ : c.off ≤ c.last)
    (hlast₂ : c.last ≤ c.total)
    (h : c.get n = some (l, c')) :
    c.off ≤ l ∧ l + n ≤ c.total ∧
      (∀ i, l ≤ i → i < l + n → c.bits i = false) ∧
      c'.bits = c.bits ∧ c'.off = c.off ∧ c'.total = c.total ∧
      c.off ≤ c'.last ∧ c'.last < c.total := by
  unfold ChunkSt.get at h
  rcases hgo : chunkGetGo c.bits c.off c.total n (c.total - c.off) c.last
      c.last with _ | ⟨ll, rr⟩
  · rw [hgo] at h; simp at h
  · rw [hgo] at h
    simp only [Option.some.injEq, Prod.mk.injEq] at h
    obtain ⟨rfl, rfl⟩ := h
    obtain ⟨h1, h2, hn1, h3, h4⟩ := chunkGetGo_spec hot (c.total - c.off)
      c.last c.last ll rr hlast₁ (le_refl _) hlast₂ (by omega) hgo
    refine ⟨h1, by omega, ?_, rfl, rfl, rfl, ?_, ?_⟩
    · intro i hi1 hi2
      exact h4 i hi1 (by omega)
    · show c.off ≤ rr
      omega
    · show rr < c.total
      exact h3

/-! ### Popcount over a bit range -/

/-- Number of set bits of `bits` in `[a, b)`. -/
def popRange (bits : Nat → Bool) (a b : Nat) : Nat :=
  ((Finset.Ico a b).filter (fun i => bits i = true)).card

theorem popRange_mask {bits : Nat → Bool} {a b p n : Nat}
    (hclear : ∀ i, p ≤ i → i < p + n → bits i = false)
    (h1 : a ≤ p) (h2 : p + n ≤ b) :
    popRange (fun i => if p ≤ i ∧ i < p + n then true else bits i) a b
      = popRange bits a b + n := by
  unfold popRange
  show ((Finset.Ico a b).filter
      (fun i => (if p ≤ i ∧ i < p + n then true else bits i) = true)).card
    = ((Finset.Ico a b).filter (fun i => bits i = true)).card + n
  have : ((Finset.Ico a b).filter
      (fun i => (if p ≤ i ∧ i < p + n then true else bits i) = true))
      = ((Finset.Ico a b).filter (fun i => bits i = true)) ∪ Finset.Ico p (p + n) := by
    ext i
    simp only [Finset.mem_filter, Finset.mem_union, Finset.mem_Ico]
    constructor
    · rintro ⟨hi, hb⟩
      by_cases hp : p ≤ i ∧ i < p + n
      · exact Or.inr ⟨hp.1, hp.2⟩
      · rw [if_neg hp] at hb
        exact Or.inl ⟨hi, hb⟩
    · rintro (⟨hi, hb⟩ | ⟨hp1, hp2⟩)
      · refine ⟨hi, ?_⟩
        by_cases hp : p ≤ i ∧ i < p + n
        · rw [if_pos hp]
        · rw [if_neg hp]; exact hb
      · exact ⟨by omega, by rw [if_pos ⟨hp1, hp2⟩]⟩
  rw [this, Finset.card_union_of_disjoint, Nat.card_Ico]
  · omega
  · rw [Finset.disjoint_right]
    intro i hi hmem
    rw [Finset.mem_Ico] at hi
    rw [Finset.mem_filter] at hmem
    rw [hclear i hi.1 hi.2] at hmem
    exact Bool.false_ne_true hmem.2

theorem popRange_unmask {bits : Nat → Bool} {a b p n : Nat}
    (hset : ∀ i, p ≤ i → i < p + n → bits i = true)
    (h1 : a ≤ p) (h2 : p + n ≤ b) :
    popRange (fun i => if p ≤ i ∧ i < p + n then false else bits i) a b
      = popRange bits a b - n := by
  unfold popRange
  show ((Finset.Ico a b).filter
      (fun i => (if p ≤ i ∧ i < p + n then false else bits i) = true)).card
    = ((Finset.Ico a b).filter (fun i => bits i = true)).card - n
  have heq : ((Finset.Ico a b).filter (fun i => bits i = true))
      = ((Finset.Ico a b).filter
          (fun i => (if p ≤ i ∧ i < p + n then false else bits i) = true))
        ∪ Finset.Ico p (p + n) := by
    ext i
    simp only [Finset.mem_filter, Finset.mem_union, Finset.mem_Ico]
    constructor
    · rintro ⟨hi, hb⟩
      by_cases hp : p ≤ i ∧ i < p + n
      · exact Or.inr hp
      · exact Or.inl ⟨hi, by rw [if_neg hp]; exact hb⟩
    · rintro (⟨hi, hb⟩ | ⟨hp1, hp2⟩)
      · refine ⟨hi, ?_⟩
        by_cases hp : p ≤ i ∧ i < p + n
        · rw [if_pos hp] at hb
          exact absurd hb (by simp)
        · rw [if_neg hp] at hb
          exact hb
      · exact ⟨by omega, hset i hp1 hp2⟩
  have hdisj : Disjoint
      ((Finset.Ico a b).filter
        (fun i => (if p ≤ i ∧ i < p + n then false else bits i) = true))
      (Finset.Ico p (p + n)) := by
    rw [Finset.disjoint_right]
    intro i hi hmem
    rw [Finset.mem_Ico] at hi
    rw [Finset.mem_filter, if_pos ⟨hi.1, hi.2⟩] at hmem
    exact absurd hmem.2 (by simp)
  rw [heq, Finset.card_union_of_disjoint hdisj, Nat.card_Ico]
  omega

/-! ## Byte-level file contents

Mapped regions are `MAP_SHARED`, so a page handle is transparent over the
file bytes: reading through `Page::into` reads the file, `memcpy` into the
mapping writes the file.  The file is a total map from byte offset to byte
value. -/

/-- Read `n` bytes at offset `o`. -/
def readBytes (file : Nat → Nat) (o n : Nat) : Bytes :=
  (List.range n).map (fun i => file (o + i))

/-- Write the bytes `v` at offset `o`. -/
def writeBytes (file : Nat → Nat) (o : Nat) (v : Bytes) : Nat → Nat :=
  fun a => if o ≤ a ∧ a < o + v.length then v.getD (a - o) 0 else file a

theorem readBytes_length (file : Nat → Nat) (o n : Nat) :
    (readBytes file o n).length = n := by
  simp [readBytes]

theorem readBytes_append (file : Nat → Nat) (o m n : Nat) :
    readBytes file o (m + n) = readBytes file o m ++ readBytes file (o + m) n := by
  unfold readBytes
  rw [List.range_add, List.map_append, List.map_map]
  congr 1
  apply List.map_congr_left
  intro i _
  simp only [Function.comp_apply]
  ring_nf

theorem readBytes_congr {f g : Nat → Nat} {o n : Nat}
    (h : ∀ a, o ≤ a → a < o + n → f a = g a) :
    readBytes f o n = readBytes g o n := by
  unfold readBytes
  apply List.map_congr_left
  intro i hi
  rw [List.mem_range] at hi
  exact h (o + i) (by omega) (by omega)

theorem readBytes_writeBytes (file : Nat → Nat) (o : Nat) (v : Bytes) :
    readBytes (writeBytes file o v) o v.length = v := by
  unfold readBytes writeBytes
  apply List.ext_getElem
  · simp
  · intro i h1 h2
    simp only [List.getElem_map, List.getElem_range]
    rw [if_pos (by simp at h1; omega)]
    simp only [Nat.add_sub_cancel_left]
    simp at h1
    exact List.getD_eq_getElem v 0 h1

theorem readBytes_writeBytes_of_disjoint (file : Nat → Nat) {o n o' : Nat}
    (v : Bytes) (h : o + n ≤ o' ∨ o' + v.length ≤ o) :
    readBytes (writeBytes file o' v) o n = readBytes file o n := by
  apply readBytes_congr
  intro a h1 h2
  unfold writeBytes
  rw [if_neg (by omega)]

theorem writeBytes_outside (file : Nat → Nat) (o : Nat) (v : Bytes) (a : Nat)
    (h : a < o ∨ o + v.length ≤ a) : writeBytes file o v a = file a := by
  unfold writeBytes
  rw [if_neg (by omega)]

/-! ## The data file (`class DataFile` in `meta.h`)

State of the `.data` file: the per-chunk allocation bitmaps and cursors
(`Chunk` objects in the chunk cache, backed by the mapped chunk headers),
the header's per-chunk `used_pages` counters and `last_chunk` hint, and the
raw file bytes.  The page/chunk caches themselves are transparent: every
cached mapping is `MAP_SHARED` at a deterministic file offset, so cache
hits and misses read and write the same bytes.  Cache eviction only resets
the (semantically irrelevant) allocation cursor `Chunk::last_`, which this
model instead persists per chunk. -/

structure DataSt where
  bits : Nat → Nat → Bool
  lastC : Nat → Nat
  used : Nat → Nat
  lastChunk : Nat
  file : Nat → Nat

/-- The `Chunk` object that `DataFile::get_chunk(ckid)` operates on:
`Chunk{ckid, m, k_data_bitmap_bits / k_data_page_sz, k_data_bitmap_bits,
k_data_chunk_hdr_sz}`. -/
def dataChunk (s : DataSt) (ck : Nat) : ChunkSt :=
  { off := k_data_bitmap_bits / k_data_page_sz
    total := k_data_bitmap_bits
    bits := s.bits ck
    last := s.lastC ck }

/-- Write a chunk's bitmap and cursor back into the data-file state. -/
def DataSt.setChunk (s : DataSt) (ck : Nat) (c : ChunkSt) : DataSt :=
  { s with
    bits := fun ck' => if ck' = ck then c.bits else s.bits ck'
    lastC := fun ck' => if ck' = ck then c.last else s.lastC ck' }

/-- The loop of `DataFile::find_space(size)`:
```
auto n = size_to_page(size);
for (size_t i = 0; i < k_nr_data_chunk; ++i) {
  ckid = (hdr_->last_chunk + i) % k_nr_data_chunk;
  if (hdr_->chunk[ckid] + n >= k_data_page_per_chunk) continue;
  c = get_chunk(ckid);
  p = c->get(n);
  if (p != ptr_null) {
    c->mask(p, n); c->mark_dirty(); hdr_->chunk[ckid] += n;
    return ptr_encode(size, ckid, p);
  }
}
return ptr_null;
```
`fuel` counts the remaining loop iterations, `i` the current index.
`dataTryChunk` is the body of one iteration past the headroom test:
`c->get(n)` followed by `c->mask(p, n)`, `hdr_->chunk[ckid] += n` and
`ptr_encode(size, ckid, p)`; `none` when `c->get(n)` returned `ptr_null`
(in which case the loop continues with the next chunk). -/
def dataTryChunk (size n : Nat) (s : DataSt) (ckid : Nat) :
    Option (Nat × DataSt) :=
  ((dataChunk s ckid).get n).elim none (fun pc =>
    some (ptr_encode size ckid pc.1,
      { (s.setChunk ckid (pc.2.mask pc.1 n)) with
        used := fun ck' => if ck' = ckid then s.used ck' + n
          else s.used ck' }))

def dataFindSpaceGo (size n : Nat) : Nat → Nat → DataSt → Option (Nat × DataSt)
  | 0, _, _ => none
  | fuel + 1, i, s =>
    if s.used ((s.lastChunk + i) % k_nr_data_chunk) + n
        ≥ k_data_page_per_chunk then
      dataFindSpaceGo size n fuel (i + 1) s
    else
      (dataTryChunk size n s ((s.lastChunk + i) % k_nr_data_chunk)).elim
        (dataFindSpaceGo size n fuel (i + 1) s) some

/-- `DataFile::find_space(size)`. -/
def dataFindSpace (s : DataSt) (size : Nat) : Option (Nat × DataSt) :=
  dataFindSpaceGo size (size_to_page size) k_nr_data_chunk 0 s

/-! ### The data iterator (`struct DataIter` in `meta.h`) -/

/-- Iterator state: remaining byte count `len`, chunk id `ckid`, offset
into the current system page `used`, data-page cursor `off`, byte offset in
the file `file_off`.  (`fd`, `file_size` and the page cache are I/O plumbing
with no effect on the bytes read or written.) -/
structure DIter where
  len : Nat
  ckid : Nat
  used : Nat
  off : Nat
  fileOff : Nat

/-- `DataFile::new_iter(id, …)`. -/
def newIter (id : Nat) : DIter :=
  { len := ptr_length id
    ckid := ptr_chunk id
    used := in_sys_page_off (ptr_id id)
    off := ptr_id id
    fileOff := data_file_off id }

/-- `DataIter::next()`: returns the base file offset of the system page
mapped for this step (the `Page` handle is `MAP_SHARED` at
`round_down(file_off, k_sys_page_sz)`), and the advanced iterator. -/
def dIterNext (it : DIter) : Option (Nat × DIter) :=
  if it.len = 0 then none
  else
    let nbytes := min it.len (k_sys_page_sz - it.used)
    some (round_down it.fileOff k_sys_page_sz,
      { it with
        used := 0
        fileOff := it.fileOff + nbytes
        len := it.len - nbytes
        off := it.off + size_to_page nbytes })

/-- The loop of `DataIter::collect()`: `used` is collect's own in-page
cursor (initialised from `in_sys_page_off(ptr_id(id))`, reset to 0 after
the first page), `length` its remaining count — which coincides with
`it.len` because `next()` subtracts the same `nbytes`. -/
def collectGo (file : Nat → Nat) : Nat → DIter → Nat → Bytes
  | 0, _, _ => []
  | fuel + 1, it, used =>
    match dIterNext it with
    | none => []
    | some (pageStart, it') =>
      readBytes file (pageStart + used) (min it.len (k_sys_page_sz - used))
        ++ collectGo file fuel it' 0

/-- `DataFile::load(id).collect()`. -/
def DataSt.loadCollect (s : DataSt) (id : Nat) : Bytes :=
  collectGo s.file (ptr_length id + 1) (newIter id) (in_sys_page_off (ptr_id id))

/-- The loop of `DataFile::copy_to_file(iter, v)`: writes
`v[off .. off+nbytes)` through the mapped page at `p->into(used)` and
marks the page dirty. -/
def copyGo (v : Bytes) : Nat → DIter → Nat → Nat → (Nat → Nat) → (Nat → Nat)
  | 0, _, _, _, file => file
  | fuel + 1, it, used, off, file =>
    match dIterNext it with
    | none => file
    | some (pageStart, it') =>
      let nbytes := min it.len (k_sys_page_sz - used)
      copyGo v fuel it' 0 (off + nbytes)
        (writeBytes file (pageStart + used) ((v.drop off).take nbytes))

/-- `DataFile::store(data)`: allocate, then stream the bytes in. -/
def DataSt.store (s : DataSt) (data : Bytes) : Option (Nat × DataSt) :=
  (dataFindSpace s data.length).elim none (fun r =>
    some (r.1, { r.2 with
      file := copyGo data (ptr_length r.1 + 1) (newIter r.1)
        (in_sys_page_off (ptr_id r.1)) 0 r.2.file }))

/-- `DataFile::free(id)`: evict the covered pages from the page cache (no
effect on file bytes), clear `size_to_page(ptr_length(id))` bitmap bits at
`ptr_id(id)`, and decrement the chunk's `used_pages`. -/
def DataSt.free (s : DataSt) (id : Nat) : DataSt :=
  let ck := ptr_chunk id
  let pages := size_to_page (ptr_length id)
  { (s.setChunk ck ((dataChunk s ck).unmask (ptr_id id) pages)) with
    used := fun ck' => if ck' = ck then s.used ck' - pages else s.used ck' }

/-! ### Net effect of the streaming iterator -/

theorem writeBytes_append (f : Nat → Nat) (o : Nat) (u w : Bytes) :
    writeBytes f o (u ++ w) = writeBytes (writeBytes f o u) (o + u.length) w := by
  funext a
  unfold writeBytes
  rcases Nat.lt_or_ge a o with h1 | h1
  · rw [if_neg (by omega), if_neg (by omega), if_neg (by omega)]
  · rcases Nat.lt_or_ge a (o + u.length) with h2 | h2
    · rw [if_pos (by simp; omega), if_neg (by omega), if_pos (by omega)]
      rw [List.getD_append _ _ _ _ (by omega)]
    · rcases Nat.lt_or_ge a (o + u.length + w.length) with h3 | h3
      · rw [if_pos (by simp; omega), if_pos (by omega)]
        rw [List.getD_append_right _ _ _ _ (by omega)]
        congr 1
        omega
      · rw [if_neg (by simp; omega), if_neg (by omega), if_neg (by omega)]

theorem collectGo_len_zero (file : Nat → Nat) (fuel : Nat) (it : DIter)
    (used : Nat) (h : it.len = 0) : collectGo file fuel it used = [] := by
  cases fuel with
  | zero => rfl
  | succ fuel => rw [collectGo, dIterNext, if_pos h]

theorem collectGo_eq (file : Nat → Nat) :
    ∀ fuel (it : DIter), it.len < fuel → it.used < k_sys_page_sz →
    it.used = it.fileOff % k_sys_page_sz →
    collectGo file fuel it it.used = readBytes file it.fileOff it.len := by
  intro fuel
  induction fuel with
  | zero => intro it h; omega
  | succ fuel ih =>
    intro it hlen hu1 hu2
    rw [collectGo]
    by_cases hz : it.len = 0
    · rw [dIterNext, if_pos hz, hz]
      rfl
    · rw [dIterNext, if_neg hz]
      simp only
      have hmodle : it.fileOff % k_sys_page_sz ≤ it.fileOff := Nat.mod_le _ _
      have hps : round_down it.fileOff k_sys_page_sz + it.used = it.fileOff := by
        unfold round_down
        omega
      rw [hps]
      set nbytes := min it.len (k_sys_page_sz - it.used) with hnb
      have hnb1 : 1 ≤ nbytes := by omega
      have hnble : nbytes ≤ it.len := by omega
      by_cases hlast : it.len - nbytes = 0
      -- last step: the tail iterator is empty
      · rw [collectGo_len_zero file fuel _ 0 (by simp; omega)]
        have hne : nbytes = it.len := by omega
        rw [hne, List.append_nil]
      · have hinv : (0:Nat) = (it.fileOff + nbytes) % k_sys_page_sz := by
          have hne : nbytes = k_sys_page_sz - it.used := by omega
          simp only [k_sys_page_sz] at hne hu1 hu2 ⊢
          omega
        have htail := ih { it with
          used := 0
          fileOff := it.fileOff + nbytes
          len := it.len - nbytes
          off := it.off + size_to_page nbytes } (by simp; omega)
          (by show 0 < k_sys_page_sz; decide) hinv
        rw [htail]
        show readBytes file it.fileOff nbytes ++
          readBytes file (it.fileOff + nbytes) (it.len - nbytes) = _
        rw [← readBytes_append]
        congr 1
        omega

theorem copyGo_len_zero (v : Bytes) (fuel : Nat) (it : DIter)
    (used off : Nat) (file : Nat → Nat) (h : it.len = 0) :
    copyGo v fuel it used off file = file := by
  cases fuel with
  | zero => rfl
  | succ fuel => rw [copyGo, dIterNext, if_pos h]

theorem copyGo_eq (v : Bytes) :
    ∀ fuel (it : DIter) (off : Nat) (file : Nat → Nat), it.len < fuel →
    it.used < k_sys_page_sz → it.used = it.fileOff % k_sys_page_sz →
    off + it.len ≤ v.length →
    copyGo v fuel it it.used off file
      = writeBytes file it.fileOff ((v.drop off).take it.len) := by
  intro fuel
  induction fuel with
  | zero => intro it off file h; omega
  | succ fuel ih =>
    intro it off file hlen hu1 hu2 hvlen
    rw [copyGo]
    by_cases hz : it.len = 0
    · rw [dIterNext, if_pos hz, hz]
      funext a
      rw [writeBytes_outside _ _ _ _ (by simp; omega)]
    · rw [dIterNext, if_neg hz]
      simp only
      have hmodle : it.fileOff % k_sys_page_sz ≤ it.fileOff := Nat.mod_le _ _
      have hps : round_down it.fileOff k_sys_page_sz + it.used = it.fileOff := by
        unfold round_down
        omega
      rw [hps]
      set nbytes := min it.len (k_sys_page_sz - it.used) with hnb
      have hnb1 : 1 ≤ nbytes := by omega
      have hnble : nbytes ≤ it.len := by omega
      have hslice : (v.drop off).take it.len
          = (v.drop off).take nbytes
            ++ (v.drop (off + nbytes)).take (it.len - nbytes) := by
        conv_lhs => rw [show it.len = nbytes + (it.len - nbytes) by omega]
        rw [List.take_add]
        congr 2
        rw [List.drop_drop]
      by_cases hlast : it.len - nbytes = 0
      · rw [copyGo_len_zero v fuel _ 0 (off + nbytes) _
          (by show it.len - nbytes = 0; omega)]
        have hne : nbytes = it.len := by omega
        rw [hne]
      · have hinv : (0:Nat) = (it.fileOff + nbytes) % k_sys_page_sz := by
          have hne : nbytes = k_sys_page_sz - it.used := by omega
          simp only [k_sys_page_sz] at hne hu1 hu2 ⊢
          omega
        have htail := ih { it with
          used := 0
          fileOff := it.fileOff + nbytes
          len := it.len - nbytes
          off := it.off + size_to_page nbytes } (off + nbytes)
          (writeBytes file it.fileOff ((v.drop off).take nbytes))
          (by simp; omega) (by show 0 < k_sys_page_sz; decide) hinv
          (by simp; omega)
        rw [htail]
        show writeBytes (writeBytes file it.fileOff ((v.drop off).take nbytes))
            (it.fileOff + nbytes) ((v.drop (off + nbytes)).take (it.len - nbytes))
          = _
        have hlen' : ((v.drop off).take nbytes).length = nbytes := by
          simp
          omega
        have happ := writeBytes_append file it.fileOff ((v.drop off).take nbytes)
          ((v.drop (off + nbytes)).take (it.len - nbytes))
        rw [hlen'] at happ
        rw [← happ, ← hslice]

/-! ### Specification of the data-file allocator -/

/-- Reserved bit prefix of a data chunk (the `off_` passed to `Chunk`):
`k_data_bitmap_bits / k_data_page_sz`. -/
def dataOff : Nat := k_data_bitmap_bits / k_data_page_sz

/-- Well-formedness of the per-chunk cursors (established at construction,
where `last_ = off_`, and preserved by every operation). -/
def DataWF (s : DataSt) : Prop :=
  ∀ ck, dataOff ≤ s.lastC ck ∧ s.lastC ck ≤ k_data_bitmap_bits

theorem dataFindSpaceGo_zero (size n i : Nat) (s : DataSt) :
    dataFindSpaceGo size n 0 i s = none := rfl

set_option maxRecDepth 8192

theorem dataFindSpaceGo_spec {s : DataSt} {size n : Nat} (hwf : DataWF s) :
    ∀ fuel i {id : Nat} {s' : DataSt},
    dataFindSpaceGo size n fuel i s = some (id, s') →
    ∃ ck p, ck < k_nr_data_chunk ∧ id = ptr_encode size ck p ∧
      dataOff ≤ p ∧ p + n ≤ k_data_bitmap_bits ∧
      (∀ j, p ≤ j → j < p + n → s.bits ck j = false) ∧
      s.used ck + n < k_data_page_per_chunk ∧
      s'.bits = (fun ck' => if ck' = ck then
        (fun j => if p ≤ j ∧ j < p + n then true else s.bits ck j)
        else s.bits ck') ∧
      s'.used = (fun ck' => if ck' = ck then s.used ck' + n
        else s.used ck') ∧
      s'.file = s.file ∧ s'.lastChunk = s.lastChunk ∧ DataWF s' := by
  intro fuel
  induction fuel with
  | zero => intro i id s' h; rw [dataFindSpaceGo_zero] at h; exact absurd h (by simp)
  | succ fuel ih =>
    intro i id s' h
    rw [dataFindSpaceGo] at h
    by_cases hfull : s.used ((s.lastChunk + i) % k_nr_data_chunk) + n
        ≥ k_data_page_per_chunk
    · rw [if_pos hfull] at h
      exact ih (i + 1) h
    · rw [if_neg hfull] at h
      rcases htry : dataTryChunk size n s ((s.lastChunk + i) % k_nr_data_chunk)
        with _ | r
      · rw [htry] at h
        exact ih (i + 1) h
      · rw [htry] at h
        simp only [Option.elim_some] at h
        unfold dataTryChunk at htry
        rcases hget : (dataChunk s ((s.lastChunk + i) % k_nr_data_chunk)).get n
          with _ | ⟨p, c'⟩
        · rw [hget] at htry
          simp only [Option.elim_none] at htry
          exact absurd htry (by simp)
        · rw [hget] at htry
          simp only [Option.elim_some, Option.some.injEq] at htry
          subst htry
          simp only [Option.some.injEq, Prod.mk.injEq] at h
          obtain ⟨rfl, rfl⟩ := h
          set ck := (s.lastChunk + i) % k_nr_data_chunk with hck
          have hckle : ck < k_nr_data_chunk :=
            Nat.mod_lt _ (by decide)
          have hot : (dataChunk s ck).off < (dataChunk s ck).total := by
            show dataOff < k_data_bitmap_bits
            decide
          obtain ⟨h1, h2, h3, h4, h5, h6, h7, h8⟩ :=
            ChunkSt.get_spec hot (hwf ck).1 (hwf ck).2 hget
          refine ⟨ck, p, hckle, rfl, h1, h2, ?_, by omega, ?_, ?_, rfl, rfl, ?_⟩
          · intro j hj1 hj2
            exact h3 j hj1 hj2
          · funext ck'
            by_cases hc : ck' = ck
            · subst hc
              simp only [DataSt.setChunk, if_pos rfl]
              show (c'.mask p n).bits = _
              unfold ChunkSt.mask
              rw [h4]
              rfl
            · simp only [DataSt.setChunk, if_neg hc]
          · funext ck'
            by_cases hc : ck' = ck
            · subst hc
              simp [DataSt.setChunk]
            · simp [DataSt.setChunk, hc]
          · intro ck'
            show dataOff ≤ (s.setChunk ck (c'.mask p n)).lastC ck' ∧
              (s.setChunk ck (c'.mask p n)).lastC ck' ≤ k_data_bitmap_bits
            simp only [DataSt.setChunk]
            by_cases hc : ck' = ck
            · rw [if_pos hc]
              exact ⟨h7, le_of_lt h8⟩
            · rw [if_neg hc]
              exact hwf ck'

/-- When every chunk fails the headroom test
(`used + n >= k_data_page_per_chunk`), `find_space` returns `ptr_null`. -/
theorem dataFindSpaceGo_none {s : DataSt} {size n : Nat}
    (h : ∀ ck, ck < k_nr_data_chunk →
      s.used ck + n ≥ k_data_page_per_chunk) :
    ∀ fuel i, dataFindSpaceGo size n fuel i s = none := by
  intro fuel
  induction fuel with
  | zero => intro i; rfl
  | succ fuel ih =>
    intro i
    rw [dataFindSpaceGo,
      if_pos (h _ (Nat.mod_lt _ (by decide))), ih]

theorem DataSt.store_none {s : DataSt} {data : Bytes}
    (h : ∀ ck, ck < k_nr_data_chunk →
      s.used ck + size_to_page data.length ≥ k_data_page_per_chunk) :
    s.store data = none := by
  unfold DataSt.store dataFindSpace
  rw [dataFindSpaceGo_none h]
  rfl

theorem dataOff_lt : dataOff < k_data_bitmap_bits := by decide

theorem in_sys_page_off_eq (p : Nat) : in_sys_page_off p = p % 64 * 64 := by
  unfold in_sys_page_off
  rw [show data_per_sys_page - 1 = 2 ^ 6 - 1 from rfl, and_mask_eq_mod]
  rfl

/-- Specification of a successful `DataFile::store`: the returned pointer
addresses a freshly-allocated run of clear pages inside one chunk, the
chunk's bitmap and `used_pages` are updated, and the bytes of `data` are
written at `data_file_off(id)`. -/
theorem DataSt.store_spec {s : DataSt} {data : Bytes} {id : Nat}
    {s' : DataSt} (hwf : DataWF s) (hlen : data.length ≤ k_max_kv_sz)
    (h : s.store data = some (id, s')) :
    ∃ ck p,
      id = ptr_encode data.length ck p ∧
      ptr_chunk id = ck ∧ ptr_id id = p ∧ ptr_length id = data.length ∧
      ck < k_nr_data_chunk ∧ dataOff ≤ p ∧
      p + size_to_page data.length ≤ k_data_bitmap_bits ∧
      (∀ j, p ≤ j → j < p + size_to_page data.length →
        s.bits ck j = false) ∧
      s.used ck + size_to_page data.length < k_data_page_per_chunk ∧
      s'.bits = (fun ck' => if ck' = ck then
        (fun j => if p ≤ j ∧ j < p + size_to_page data.length then true
          else s.bits ck j)
        else s.bits ck') ∧
      s'.used = (fun ck' => if ck' = ck then
        s.used ck' + size_to_page data.length else s.used ck') ∧
      s'.lastChunk = s.lastChunk ∧ DataWF s' ∧
      s'.file = writeBytes s.file (data_file_off id) data := by
  unfold DataSt.store at h
  rcases hfs : dataFindSpace s data.length with _ | r
  · rw [hfs] at h
    exact absurd h (by simp)
  · rw [hfs] at h
    simp only [Option.elim_some, Option.some.injEq, Prod.mk.injEq] at h
    obtain ⟨hid, hs'⟩ := h
    obtain ⟨ck, p, hck, henc, hp1, hp2, hclear, hroom, hbits, hused, hfile,
      hlast, hwf'⟩ := dataFindSpaceGo_spec hwf k_nr_data_chunk 0 hfs
    subst hid
    subst hs'
    have hl24 : data.length < 2 ^ 24 := by
      have : k_max_kv_sz = 2 ^ 24 - 1 := rfl
      omega
    have hc11 : ck < 2 ^ 11 := hck
    have hbm : k_data_bitmap_bits = 2 ^ 23 := by decide
    have hp29 : p < 2 ^ 29 := by omega
    have hde : ptr_chunk r.1 = ck := by
      rw [henc]
      exact ptr_chunk_encode hl24 hc11 hp29
    have hdi : ptr_id r.1 = p := by
      rw [henc]
      exact ptr_id_encode hl24 hc11 hp29
    have hdl : ptr_length r.1 = data.length := by
      rw [henc]
      exact ptr_length_encode hl24 hc11 hp29
    refine ⟨ck, p, henc, hde, hdi, hdl, hck, hp1, hp2, hclear, hroom,
      hbits, hused, hlast, hwf', ?_⟩
    · show copyGo data (ptr_length r.1 + 1) (newIter r.1)
          (in_sys_page_off (ptr_id r.1)) 0 r.2.file = _
      have hit : (newIter r.1).used = in_sys_page_off (ptr_id r.1) := rfl
      have hoff : (newIter r.1).fileOff = data_file_off r.1 := rfl
      have hlen' : (newIter r.1).len = ptr_length r.1 := rfl
      have hfo : data_file_off r.1 = k_data_hdr_sz + ck * k_chunk_sz
          + p * k_data_page_sz := by
        unfold data_file_off
        rw [hde, hdi]
      have hmod : in_sys_page_off (ptr_id r.1)
          = (newIter r.1).fileOff % k_sys_page_sz := by
        rw [hoff, hfo, hdi, in_sys_page_off_eq]
        show p % 64 * 64
          = (12288 + ck * 2 ^ 29 + p * 64) % 4096
        omega
      have := copyGo_eq data (ptr_length r.1 + 1) (newIter r.1) 0 r.2.file
        (by rw [hlen']; omega)
        (by rw [hit, hdi, in_sys_page_off_eq]
            show p % 64 * 64 < 4096
            have := Nat.mod_lt p (show 0 < 64 by decide)
            omega)
        (by rw [hit]; exact hmod) (by rw [hlen', hdl]; omega)
      rw [hit] at this
      rw [this, hoff, hlen', hdl, List.drop_zero, List.take_length, hfile]

/-- Round trip: the bytes stored by a successful `store` are exactly what
`load(...).collect()` returns. -/
theorem DataSt.store_collect {s : DataSt} {data : Bytes} {id : Nat}
    {s' : DataSt} (hwf : DataWF s) (hlen : data.length ≤ k_max_kv_sz)
    (h : s.store data = some (id, s')) :
    s'.loadCollect id = data := by
  obtain ⟨ck, p, henc, hde, hdi, hdl, hck, hp1, hp2, hclear, hroom, hbits,
    hused, hlast, hwf', hfile⟩ := DataSt.store_spec hwf hlen h
  unfold DataSt.loadCollect
  have hl24 : data.length < 2 ^ 24 := by
    have : k_max_kv_sz = 2 ^ 24 - 1 := rfl
    omega
  have hfo : data_file_off id = k_data_hdr_sz + ck * k_chunk_sz
      + p * k_data_page_sz := by
    unfold data_file_off
    rw [hde, hdi]
  have hcc := collectGo_eq s'.file (ptr_length id + 1) (newIter id)
    (by show ptr_length id < ptr_length id + 1; omega)
    (by show in_sys_page_off (ptr_id id) < k_sys_page_sz
        rw [hdi, in_sys_page_off_eq]
        show p % 64 * 64 < 4096
        have := Nat.mod_lt p (show 0 < 64 by decide)
        omega)
    (by show in_sys_page_off (ptr_id id) = data_file_off id % k_sys_page_sz
        rw [hdi, hfo, in_sys_page_off_eq]
        show p % 64 * 64 = (12288 + ck * 2 ^ 29 + p * 64) % 4096
        omega)
  rw [show (newIter id).used = in_sys_page_off (ptr_id id) from rfl] at hcc
  rw [hcc]
  show readBytes s'.file (data_file_off id) (ptr_length id) = data
  rw [hdl, hfile]
  exact readBytes_writeBytes s.file (data_file_off id) data

/-- Frame: a successful `store` changes no byte outside
`[data_file_off id, data_file_off id + data.length)`. -/
theorem DataSt.store_frame {s : DataSt} {data : Bytes} {id : Nat}
    {s' : DataSt} (hwf : DataWF s) (hlen : data.length ≤ k_max_kv_sz)
    (h : s.store data = some (id, s')) {o m : Nat}
    (hdisj : o + m ≤ data_file_off id ∨ data_file_off id + data.length ≤ o) :
    readBytes s'.file o m = readBytes s.file o m := by
  obtain ⟨ck, p, henc, hde, hdi, hdl, hck, hp1, hp2, hclear, hroom, hbits,
    hused, hlast, hwf', hfile⟩ := DataSt.store_spec hwf hlen h
  rw [hfile]
  exact readBytes_writeBytes_of_disjoint s.file data (by omega)

/-! ### The `used_pages` / bitmap-popcount invariant (data file) -/

theorem popRange_zero {bits : Nat → Bool} {a b : Nat}
    (h : ∀ i, a ≤ i → i < b → bits i = false) : popRange bits a b = 0 := by
  unfold popRange
  rw [Finset.card_eq_zero]
  ext i
  simp only [Finset.mem_filter, Finset.mem_Ico, Finset.not_mem_empty,
    iff_false, not_and]
  intro h1 h2
  rw [h i h1.1 h1.2] at h2
  exact absurd h2 (by simp)

theorem popRange_split (bits : Nat → Bool) {a b c : Nat} (h1 : a ≤ b)
    (h2 : b ≤ c) : popRange bits a c = popRange bits a b + popRange bits b c := by
  unfold popRange
  have hd : Disjoint
      ((Finset.Ico a b).filter (fun i => bits i = true))
      ((Finset.Ico b c).filter (fun i => bits i = true)) :=
    Finset.disjoint_filter_filter (Finset.Ico_disjoint_Ico_consecutive a b c)
  rw [← Finset.card_union_of_disjoint hd, ← Finset.filter_union,
    Finset.Ico_union_Ico_eq_Ico h1 h2]

/-- A currently-allocated blob: an encoded pointer whose page run lies in
the allocatable range of its chunk and whose bitmap bits are all set.
Every pointer handed out by `store` and not yet freed satisfies this. -/
def BlobAllocated (s : DataSt) (id : Nat) : Prop :=
  ptr_chunk id < k_nr_data_chunk ∧ dataOff ≤ ptr_id id ∧
  ptr_id id + size_to_page (ptr_length id) ≤ k_data_bitmap_bits ∧
  (∀ j, ptr_id id ≤ j → j < ptr_id id + size_to_page (ptr_length id) →
    s.bits (ptr_chunk id) j = true)

/-- Data-file states reachable from a freshly formatted file by `store` of
blobs and `free` of currently-allocated blobs. -/
inductive DataReach : DataSt → Prop where
  | init (s : DataSt) : (∀ ck b, s.bits ck b = false) →
      (∀ ck, s.used ck = 0) → (∀ ck, s.lastC ck = dataOff) → DataReach s
  | store {s s' : DataSt} {v : Bytes} {id : Nat} : DataReach s →
      v.length ≤ k_max_kv_sz → s.store v = some (id, s') → DataReach s'
  | free {s : DataSt} {id : Nat} : DataReach s → BlobAllocated s id →
      DataReach (s.free id)

/-- The inductive invariant: cursor well-formedness, reserved bits clear,
and `used_pages = popcount` over the allocatable range, for every chunk. -/
theorem dataReach_inv {s : DataSt} (h : DataReach s) :
    DataWF s ∧ (∀ ck j, j < dataOff → s.bits ck j = false) ∧
    (∀ ck, ck < k_nr_data_chunk →
      s.used ck = popRange (s.bits ck) dataOff k_data_bitmap_bits) := by
  induction h with
  | init s hbits hused hlast =>
    refine ⟨?_, ?_, ?_⟩
    · intro ck
      rw [hlast]
      exact ⟨le_refl _, le_of_lt dataOff_lt⟩
    · intro ck j _
      exact hbits ck j
    · intro ck _
      rw [hused, popRange_zero]
      intro i _ _
      exact hbits ck i
  | store hreach hlen hstore ih =>
    rename_i s0 s1 v0 id0
    obtain ⟨hwf, hres, hinv⟩ := ih
    obtain ⟨ck, p, henc, hde, hdi, hdl, hck, hp1, hp2, hclear, hroom, hbits,
      hused, hlast, hwf', hfile⟩ := DataSt.store_spec hwf hlen hstore
    refine ⟨hwf', ?_, ?_⟩
    · intro ck' j hj
      rw [hbits]
      show (if ck' = ck then
          (fun j => if p ≤ j ∧ j < p + size_to_page v0.length then true
            else s0.bits ck j)
          else s0.bits ck') j = false
      by_cases hc : ck' = ck
      · rw [if_pos hc]
        show (if p ≤ j ∧ j < p + size_to_page v0.length then true
          else s0.bits ck j) = false
        rw [if_neg (by omega)]
        exact hres ck j hj
      · rw [if_neg hc]
        exact hres ck' j hj
    · intro ck' hck'
      rw [hbits, hused]
      show (if ck' = ck then s0.used ck' + size_to_page v0.length
          else s0.used ck')
        = popRange ((if ck' = ck then
            (fun j => if p ≤ j ∧ j < p + size_to_page v0.length then true
              else s0.bits ck j)
            else s0.bits ck')) dataOff k_data_bitmap_bits
      by_cases hc : ck' = ck
      · rw [if_pos hc, if_pos hc, hc]
        rw [popRange_mask hclear hp1 hp2, hinv ck hck]
      · rw [if_neg hc, if_neg hc]
        exact hinv ck' hck'
  | free hreach halloc ih =>
    obtain ⟨hwf, hres, hinv⟩ := ih
    obtain ⟨hck, hp1, hp2, hset⟩ := halloc
    rename_i s' id
    have hfb : (s'.free id).bits = fun ck' =>
        if ck' = ptr_chunk id then
          (fun j => if ptr_id id ≤ j ∧
              j < ptr_id id + size_to_page (ptr_length id) then false
            else s'.bits (ptr_chunk id) j)
        else s'.bits ck' := rfl
    have hfu : (s'.free id).used = fun ck' =>
        if ck' = ptr_chunk id then
          s'.used ck' - size_to_page (ptr_length id)
        else s'.used ck' := rfl
    have hfl : (s'.free id).lastC = fun ck' =>
        if ck' = ptr_chunk id then s'.lastC (ptr_chunk id)
        else s'.lastC ck' := rfl
    refine ⟨?_, ?_, ?_⟩
    · intro ck
      rw [show (s'.free id).lastC ck
          = (if ck = ptr_chunk id then s'.lastC (ptr_chunk id)
            else s'.lastC ck) from congrFun hfl ck]
      by_cases hc : ck = ptr_chunk id
      · rw [if_pos hc]
        exact hwf (ptr_chunk id)
      · rw [if_neg hc]
        exact hwf ck
    · intro ck j hj
      rw [hfb]
      show (if ck = ptr_chunk id then
          (fun j => if ptr_id id ≤ j ∧
              j < ptr_id id + size_to_page (ptr_length id) then false
            else s'.bits (ptr_chunk id) j)
        else s'.bits ck) j = false
      by_cases hc : ck = ptr_chunk id
      · rw [if_pos hc]
        show (if ptr_id id ≤ j ∧
            j < ptr_id id + size_to_page (ptr_length id) then false
          else s'.bits (ptr_chunk id) j) = false
        by_cases hin : ptr_id id ≤ j ∧
            j < ptr_id id + size_to_page (ptr_length id)
        · rw [if_pos hin]
        · rw [if_neg hin]
          exact hres (ptr_chunk id) j hj
      · rw [if_neg hc]
        exact hres ck j hj
    · intro ck hckn
      rw [hfb, hfu]
      show (if ck = ptr_chunk id then
          s'.used ck - size_to_page (ptr_length id) else s'.used ck)
        = popRange ((if ck = ptr_chunk id then
            (fun j => if ptr_id id ≤ j ∧
                j < ptr_id id + size_to_page (ptr_length id) then false
              else s'.bits (ptr_chunk id) j)
          else s'.bits ck)) dataOff k_data_bitmap_bits
      by_cases hc : ck = ptr_chunk id
      · rw [if_pos hc, if_pos hc]
        rw [popRange_unmask (fun j ha hb => hset j ha hb) hp1 hp2]
        rw [hc, hinv (ptr_chunk id) hck]
      · rw [if_neg hc, if_neg hc]
        exact hinv ck hckn

/-- The state of a freshly formatted data file: zeroed bitmaps and
counters (`DataFile::format` zeroes the header and `map_file` zero-fills
newly allocated regions); each chunk's cursor starts at `off_`. -/
def dataInit : DataSt :=
  { bits := fun _ _ => false
    lastC := fun _ => dataOff
    used := fun _ => 0
    lastChunk := 0
    file := fun _ => 0 }

/-- `BpTree::store_kv(key, val)`:
```
auto pk = data_->store(key);
if (pk == ptr_null)
  return { false, ptr_null, ptr_null };
auto pv = data_->store(val);
return { pv != ptr_null, pk, pv };
```
The final `DataSt` is the data-file state after the calls. -/
def store_kv (s : DataSt) (key val : Bytes) : Bool × Nat × Nat × DataSt :=
  (s.store key).elim (false, ptrNull, ptrNull, s) (fun r1 =>
    (r1.2.store val).elim (false, r1.1, ptrNull, r1.2) (fun r2 =>
      (true, r1.1, r2.1, r2.2)))

theorem store_kv_key_fail {s : DataSt} {key val : Bytes}
    (h : s.store key = none) :
    store_kv s key val = (false, ptrNull, ptrNull, s) := by
  unfold store_kv
  rw [h]
  rfl

theorem store_kv_val_fail {s : DataSt} {key val : Bytes} {pk : Nat}
    {s1 : DataSt} (h1 : s.store key = some (pk, s1))
    (h2 : s1.store val = none) :
    store_kv s key val = (false, pk, ptrNull, s1) := by
  unfold store_kv
  rw [h1]
  show (s1.store val).elim (false, pk, ptrNull, s1) _ = _
  rw [h2]
  rfl

theorem store_kv_ok {s : DataSt} {key val : Bytes} {pk pv : Nat}
    {s1 s2 : DataSt} (h1 : s.store key = some (pk, s1))
    (h2 : s1.store val = some (pv, s2)) :
    store_kv s key val = (true, pk, pv, s2) := by
  unfold store_kv
  rw [h1]
  show (s1.store val).elim (false, pk, ptrNull, s1) _ = _
  rw [h2]
  rfl

/-! ## The node file (`class NodeFile` in `meta.h`) -/

/-- Reserved bit prefix of an index chunk (the `off_` passed to `Chunk`):
`k_index_bitmap_bits / k_index_page_sz` (= 32). -/
def indexOff : Nat := k_index_bitmap_bits / k_index_page_sz

/-- State of the `.db` file's allocator: per-chunk bitmaps and cursors,
the header's `chunk[]` counters and `last_chunk` hint.  (`NodeFile` never
writes `last_chunk`; it stays at its initial value.) -/
structure NodeSt where
  bits : Nat → Nat → Bool
  lastC : Nat → Nat
  used : Nat → Nat
  lastChunk : Nat

/-- The `Chunk` object of `NodeFile::get_chunk(ckid)`:
`Chunk{ckid, m, k_index_bitmap_bits / k_index_page_sz, k_index_bitmap_bits,
k_index_chunk_hdr_sz}`. -/
def nodeChunk (s : NodeSt) (ck : Nat) : ChunkSt :=
  { off := k_index_bitmap_bits / k_index_page_sz
    total := k_index_bitmap_bits
    bits := s.bits ck
    last := s.lastC ck }

def NodeSt.setChunk (s : NodeSt) (ck : Nat) (c : ChunkSt) : NodeSt :=
  { s with
    bits := fun ck' => if ck' = ck then c.bits else s.bits ck'
    lastC := fun ck' => if ck' = ck then c.last else s.lastC ck' }

/-- One probe of `NodeFile::find_space` past the fullness test:
`c->get()`, `c->mask(p)`, `hdr_->chunk[ckid] += 1`,
`ptr_encode(k_index_page_sz, ckid, p)`. -/
def nodeTryChunk (s : NodeSt) (ckid : Nat) : Option (Nat × NodeSt) :=
  ((nodeChunk s ckid).get 1).elim none (fun pc =>
    some (ptr_encode k_index_page_sz ckid pc.1,
      { (s.setChunk ckid (pc.2.mask pc.1 1)) with
        used := fun ck' => if ck' = ckid then s.used ck' + 1
          else s.used ck' }))

/-- The loop of `NodeFile::find_space`:
```
for (size_t i = 0; i < k_nr_index_chunk; ++i) {
  ckid = (hdr_->last_chunk + 1) % k_nr_index_chunk;
  if (hdr_->chunk[ckid] == k_index_page_per_chunk)
    continue;
  c = get_chunk(ckid);
  p = c->get();
  if (p != ptr_null) { … return ptr_encode(k_index_page_sz, ckid, p); }
}
return ptr_null;
```
Note that the code computes `ckid` from `last_chunk + 1` on *every*
iteration — the loop variable `i` is never used (compare
`DataFile::find_space`, which uses `last_chunk + i`), so all
`k_nr_index_chunk` iterations probe the same chunk. -/
def nodeFindSpaceGo : Nat → NodeSt → Option (Nat × NodeSt)
  | 0, _ => none
  | fuel + 1, s =>
    if s.used ((s.lastChunk + 1) % k_nr_index_chunk)
        = k_index_page_per_chunk then
      nodeFindSpaceGo fuel s
    else
      (nodeTryChunk s ((s.lastChunk + 1) % k_nr_index_chunk)).elim
        (nodeFindSpaceGo fuel s) some

/-- `NodeFile::find_space` = `NodeFile::get` (modulo a debug print). -/
def nodeFindSpace (s : NodeSt) : Option (Nat × NodeSt) :=
  nodeFindSpaceGo k_nr_index_chunk s

/-- `NodeFile::free(id)`: clear the bitmap bit, evict the page from the
page cache (transparent), decrement `used_pages`. -/
def NodeSt.free (s : NodeSt) (id : Nat) : NodeSt :=
  { (s.setChunk (ptr_chunk id)
      ((nodeChunk s (ptr_chunk id)).unmask (ptr_id id) 1)) with
    used := fun ck' => if ck' = ptr_chunk id then s.used ck' - 1
      else s.used ck' }

/-- If the single chunk that `NodeFile::find_space` ever probes —
`(last_chunk + 1) % k_nr_index_chunk` — is full, the whole scan returns
`ptr_null`, regardless of the space available in other chunks. -/
theorem nodeFindSpaceGo_stuck {s : NodeSt}
    (h : s.used ((s.lastChunk + 1) % k_nr_index_chunk)
      = k_index_page_per_chunk) :
    ∀ fuel, nodeFindSpaceGo fuel s = none := by
  intro fuel
  induction fuel with
  | zero => rfl
  | succ fuel ih =>
    rw [nodeFindSpaceGo, if_pos h, ih]

/-! ## The B+tree (`bptree.h`)

Tree nodes live in index pages.  `node_t` is the common header
(`type, count, self, parent, prev, next`); a leaf carries `kv_t kv[]`
(`{key, val}` pointer pairs), an interior node `kc_t kc[]`
(`{key, child}`).  The model stores each node's entry array as a list
(whose length is the header's `count`).  Because `kv_t` and `kc_t` have
the identical layout `{ptr_t, ptr_t}`, `Page::into<leaf_t>` on an interior
page reads `kc[i]` as `kv[i]` and vice versa; the accessors below
reproduce exactly that pun. -/

structure NodeHdr where
  self : Nat
  parent : Nat
  prev : Nat
  next : Nat

structure Kv where
  key : Nat
  val : Nat

structure Kc where
  key : Nat
  child : Nat

inductive TNode where
  | leaf : NodeHdr → List Kv → TNode
  | intl : NodeHdr → List Kc → TNode

def TNode.hdr : TNode → NodeHdr
  | .leaf h _ => h
  | .intl h _ => h

def TNode.isLeaf : TNode → Bool
  | .leaf _ _ => true
  | .intl _ _ => false

/-- The entry array seen through `into<leaf_t>` (layout pun on interiors). -/
def TNode.kvs : TNode → List Kv
  | .leaf _ kvs => kvs
  | .intl _ kcs => kcs.map (fun kc => ⟨kc.key, kc.child⟩)

/-- The entry array seen through `into<intl_t>` (layout pun on leaves). -/
def TNode.kcs : TNode → List Kc
  | .leaf _ kvs => kvs.map (fun kv => ⟨kv.key, kv.val⟩)
  | .intl _ kcs => kcs

def TNode.setParent : TNode → Nat → TNode
  | .leaf h kvs, p => .leaf { h with parent := p } kvs
  | .intl h kcs, p => .intl { h with parent := p } kcs

def TNode.setPrev : TNode → Nat → TNode
  | .leaf h kvs, p => .leaf { h with prev := p } kvs
  | .intl h kcs, p => .intl { h with prev := p } kcs

def TNode.setNext : TNode → Nat → TNode
  | .leaf h kvs, p => .leaf { h with next := p } kvs
  | .intl h kcs, p => .intl { h with next := p } kcs

/-- The node pages of the `.db` file, as an association list from page
pointer to node content (the page cache is transparent; this is the
on-disk content). -/
def PageMap := List (Nat × TNode)

def pGet : PageMap → Nat → Option TNode
  | [], _ => none
  | (i, m) :: rest, id => if i = id then some m else pGet rest id

def pSet : PageMap → Nat → TNode → PageMap
  | [], id, n => [(id, n)]
  | (i, m) :: rest, id, n =>
    if i = id then (id, n) :: rest else (i, m) :: pSet rest id n

theorem pGet_pSet (ps : PageMap) (id : Nat) (n : TNode) (id' : Nat) :
    pGet (pSet ps id n) id' = if id' = id then some n else pGet ps id' := by
  induction ps with
  | nil =>
    show (if id = id' then some n else pGet [] id') = _
    by_cases h : id' = id
    · rw [if_pos h.symm, if_pos h]
    · rw [if_neg (fun hh => h hh.symm), if_neg h]
  | cons hd rest ih =>
    obtain ⟨i, m⟩ := hd
    show pGet (if i = id then (id, n) :: rest else (i, m) :: pSet rest id n)
      id' = _
    by_cases hi : i = id
    · rw [if_pos hi]
      show (if id = id' then some n else pGet rest id') = _
      by_cases h : id' = id
      · rw [if_pos h.symm, if_pos h]
      · rw [if_neg (fun hh => h hh.symm), if_neg h]
        show pGet rest id' = pGet ((i, m) :: rest) id'
        show pGet rest id' = if i = id' then some m else pGet rest id'
        rw [if_neg (fun hh : i = id' => h (hh ▸ hi))]
    · rw [if_neg hi]
      show (if i = id' then some m else pGet (pSet rest id n) id') = _
      by_cases h2 : i = id'
      · rw [if_pos h2, if_neg (fun hh => hi (h2.trans hh))]
        show some m = pGet ((i, m) :: rest) id'
        show some m = if i = id' then some m else pGet rest id'
        rw [if_pos h2]
      · rw [if_neg h2, ih]
        by_cases h : id' = id
        · rw [if_pos h, if_pos h]
        · rw [if_neg h, if_neg h]
          show pGet rest id' = if i = id' then some m else pGet rest id'
          rw [if_neg h2]

/-- The whole store state: node pages, the two allocators, and the node
file header's `root` and `nr_kv` fields. -/
structure TreeSt where
  pages : PageMap
  nfile : NodeSt
  dfile : DataSt
  root : Nat
  nrkv : Nat

/-- `BpTree::load_data(ptr)` = `data_->load(ptr).collect()`. -/
def loadData (d : DataSt) (p : Nat) : Bytes := d.loadCollect p

/-- `loadData` always reads `ptr_length p` bytes at `data_file_off p`:
the iterator invariants hold for every pointer shape. -/
theorem loadData_eq (d : DataSt) (p : Nat) :
    loadData d p = readBytes d.file (data_file_off p) (ptr_length p) := by
  unfold loadData DataSt.loadCollect
  have h64 : ptr_id p % 64 * 64 < 4096 := by
    have := Nat.mod_lt (ptr_id p) (show 0 < 64 by decide)
    omega
  have hcc := collectGo_eq d.file (ptr_length p + 1) (newIter p)
    (by show ptr_length p < ptr_length p + 1; omega)
    (by show in_sys_page_off (ptr_id p) < k_sys_page_sz
        rw [in_sys_page_off_eq]
        exact h64)
    (by show in_sys_page_off (ptr_id p) = data_file_off p % k_sys_page_sz
        rw [in_sys_page_off_eq]
        show ptr_id p % 64 * 64 = (k_data_hdr_sz + ptr_chunk p * k_chunk_sz
          + ptr_id p * k_data_page_sz) % k_sys_page_sz
        show ptr_id p % 64 * 64 = (12288 + ptr_chunk p * 2 ^ 29
          + ptr_id p * 64) % 4096
        omega)
  rw [show (newIter p).used = in_sys_page_off (ptr_id p) from rfl] at hcc
  exact hcc

/-! ### Binary search (`BpTree::bsearch`) -/

/-- The loop of `BpTree::bsearch(arr, n, key)` over the key pointers of
the entries; `l`, `r` are the C `int` variables. -/
def bsearchGo (cmp : Bytes → Bytes → Int) (d : DataSt) (keys : List Nat)
    (target : Bytes) : Nat → Int → Int → Int
  | 0, l, _ => l
  | fuel + 1, l, r =>
    if l ≤ r then
      if cmp (loadData d (keys.getD (l + (r - l) / 2).toNat 0)) target ≥ 0
      then bsearchGo cmp d keys target fuel l (l + (r - l) / 2 - 1)
      else bsearchGo cmp d keys target fuel (l + (r - l) / 2 + 1) r
    else l

def bsearch (cmp : Bytes → Bytes → Int) (d : DataSt) (keys : List Nat)
    (n : Nat) (target : Bytes) : Nat :=
  (bsearchGo cmp d keys target (n + 1) 0 (Int.ofNat n - 1)).toNat

/-- `BpTree::leaf_search`: binary search over `kv[0..count)`. -/
def leafSearch (cmp : Bytes → Bytes → Int) (d : DataSt) (kvs : List Kv)
    (key : Bytes) : Bool × Nat :=
  let pos := bsearch cmp d (kvs.map Kv.key) kvs.length key
  if pos < kvs.length ∧
      cmp (loadData d ((kvs.map Kv.key).getD pos 0)) key = 0 then
    (true, pos)
  else (false, pos)

/-- `BpTree::intl_search`: binary search over the `count - 1` separator
keys. -/
def intlSearch (cmp : Bytes → Bytes → Int) (d : DataSt) (kcs : List Kc)
    (key : Bytes) : Bool × Nat :=
  let pos := bsearch cmp d (kcs.map Kc.key) (kcs.length - 1) key
  if pos < kcs.length - 1 ∧
      cmp (loadData d ((kcs.map Kc.key).getD pos 0)) key = 0 then
    (true, pos)
  else (false, pos)

/-- `BpTree::search(cur, key)`: descend from `cur` to the leaf that may
hold `key`.  `none` models both `bassert` failure (invalid page id) and
the `cur == ptr_null` loop exit (whose `bassert(root_ == ptr_null)` only
passes when the tree is empty; callers in that case never reach `search`
with a non-null root). -/
def searchF (cmp : Bytes → Bytes → Int) (s : TreeSt) (key : Bytes) :
    Nat → Nat → Option Nat
  | 0, _ => none
  | fuel + 1, cur =>
    if cur = ptrNull then none
    else
      (pGet s.pages cur).elim none (fun n =>
        if n.isLeaf then some cur
        else
          searchF cmp s key fuel
            ((n.kcs.getD
              (if (intlSearch cmp s.dfile n.kcs key).1 then
                (intlSearch cmp s.dfile n.kcs key).2 + 1
              else (intlSearch cmp s.dfile n.kcs key).2) ⟨0, 0⟩).child))

/-- `BpTree::get(key)`. -/
def getF (cmp : Bytes → Bytes → Int) (fuel : Nat) (s : TreeSt)
    (key : Bytes) : Option Bytes :=
  if s.root = ptrNull then some []
  else
    (searchF cmp s key fuel s.root).elim none (fun pid =>
      (pGet s.pages pid).elim none (fun n =>
        if (leafSearch cmp s.dfile n.kvs key).1 then
          some (loadData s.dfile
            ((n.kvs.getD (leafSearch cmp s.dfile n.kvs key).2 ⟨0, 0⟩).val))
        else some []))

/-! ### Insertion (`put`, `leaf_put`, `leaf_split`, `intl_put`,
`intl_split`, `insert_fixup`, `node_alloc`, `node_append`)

Throughout, `Option.none` models a `bassert` failure or a dereference
of an unchecked null `Page *` — both kill the process. -/

/-- `BpTree::node_alloc`: grab an index page from the node allocator
and reset its header (`parent/next/prev := ptr_null`, `self := id`).
The node's content (count and entries) is written by the caller; the
model's caller builds the whole node, matching a fresh zero-filled
page.  `none` when `node_->get()` returns `ptr_null`. -/
def treeNodeAlloc (s : TreeSt) : Option (Nat × TreeSt) :=
  (nodeFindSpace s.nfile).elim none
    (fun r => some (r.1, { s with nfile := r.2 }))

/-- `BpTree::node_append(head, node)`: link the fresh `node` right
after `head`.  Returns head's and node's updated headers and the page
map after fixing the old successor's `prev` pointer (`load_node`
returns null only for `ptr_null`; a non-null id absent from the map is
skipped, which under well-formedness never happens). -/
def nodeAppendLinks (ps : PageMap) (headHdr nodeHdr : NodeHdr) :
    NodeHdr × NodeHdr × PageMap :=
  ({ headHdr with next := nodeHdr.self },
   { nodeHdr with prev := headHdr.self, next := headHdr.next },
   if headHdr.next = ptrNull then ps
   else
     (pGet ps headHdr.next).elim ps
       (fun nx => pSet ps headHdr.next (nx.setPrev nodeHdr.self)))

/-- `BpTree::leaf_split(leaf, pos, kv)` for the leaf page `pid` with
header `hdr` and entries `kvs`: allocate a sibling, link it after the
leaf, insert `kv` at `pos` (count becomes `count + 1`), move the upper
`count + 1 - count / 2` entries to the sibling, and bump `nr_kv`.
Returns the sibling's page id. -/
def leafSplit (s : TreeSt) (pid : Nat) (hdr : NodeHdr) (kvs : List Kv)
    (pos : Nat) (kv : Kv) : Option (TreeSt × Nat) :=
  (treeNodeAlloc s).elim none (fun r =>
    let sibId := r.1
    let mid := kvs.length / 2
    let lk := nodeAppendLinks r.2.pages hdr ⟨sibId, ptrNull, ptrNull, ptrNull⟩
    let kvs' := kvs.insertIdx pos kv
    some ({ r.2 with
      pages := pSet (pSet lk.2.2 pid (.leaf lk.1 (kvs'.take mid)))
        sibId (.leaf lk.2.1 (kvs'.drop mid))
      nrkv := r.2.nrkv + 1 }, sibId))

/-- The interior-insert array surgery of `intl_put`/`intl_split`:
`rshift(kc, count, pos); kc[pos].key = key; kc[pos+1].child = child`.
After the shift both slots `pos` and `pos+1` hold copies of the old
entry `pos`, so slot `pos` keeps its old child and slot `pos+1` its old
key. -/
def kcInsert (kcs : List Kc) (pos : Nat) (key childSelf : Nat) : List Kc :=
  kcs.take pos ++ ⟨key, (kcs.getD pos ⟨0, 0⟩).child⟩ ::
    ⟨(kcs.getD pos ⟨0, 0⟩).key, childSelf⟩ :: kcs.drop (pos + 1)

/-- Reparent the pages named by `childIds` to `newParent` (the loop in
`intl_split`/the merge helpers; `load_node` is null only for
`ptr_null`, and ids absent from the map are skipped). -/
def reparent (ps : PageMap) (childIds : List Nat) (newParent : Nat) :
    PageMap :=
  childIds.foldl (fun acc cid =>
    if cid = ptrNull then acc
    else (pGet acc cid).elim acc
      (fun c => pSet acc cid (c.setParent newParent))) ps

/-- `BpTree::intl_split(page, child, pos, key)` for the interior page
`pageId` (header `hdr`, entries `kcs`, full: `count = M`): allocate a
sibling, link it, insert, read the separator `rkey = kc[mid-1].key`
(after the insert, `mid = (M+1)/2`), move the upper entries to the
sibling and reparent their children.  Returns `(state, rkey, sibId)`. -/
def intlSplit (s : TreeSt) (pageId : Nat) (hdr : NodeHdr) (kcs : List Kc)
    (childSelf : Nat) (pos : Nat) (key : Nat) :
    Option (TreeSt × Nat × Nat) :=
  (treeNodeAlloc s).elim none (fun r =>
    let sibId := r.1
    let mid := (kcs.length + 1) / 2
    let lk := nodeAppendLinks r.2.pages hdr ⟨sibId, ptrNull, ptrNull, ptrNull⟩
    let kcs' := kcInsert kcs pos key childSelf
    let rhsKcs := kcs'.drop mid
    some ({ r.2 with
      pages := reparent
        (pSet (pSet lk.2.2 pageId (.intl lk.1 (kcs'.take mid)))
          sibId (.intl lk.2.1 rhsKcs))
        (rhsKcs.map Kc.child) sibId }, (kcs'.getD (mid - 1) ⟨0, 0⟩).key,
      sibId))

/-- One `BpTree::intl_put(page, node, key)` call.  `inl s` = done;
`inr (s, l, r, k)` = the page split and `insert_fixup(l, r, k)` must
recurse.  `none` models the `bassert(!ok)` (the separator key must not
already be present) and allocation-null dereferences. -/
def intlPutStep (cmp : Bytes → Bytes → Int) (s : TreeSt)
    (pageId rId : Nat) (key : Nat) :
    Option (TreeSt ⊕ TreeSt × Nat × Nat × Nat) :=
  (pGet s.pages pageId).elim none (fun pnode =>
    (pGet s.pages rId).elim none (fun rnode =>
      let kcs := pnode.kcs
      let sr := intlSearch cmp s.dfile kcs (loadData s.dfile key)
      if sr.1 then none
      else
        let childSelf := rnode.hdr.self
        if kcs.length = k_bpt_order then
          (intlSplit s pageId pnode.hdr kcs childSelf sr.2 key).elim none
            (fun rr => some (.inr (rr.1, pageId, rr.2.2, rr.2.1)))
        else
          some (.inl { s with
            pages := pSet s.pages pageId
              (.intl pnode.hdr (kcInsert kcs sr.2 key childSelf)) })))

/-- `BpTree::insert_fixup(l, r, key)` (fuelled on the recursion through
`intl_put`/`intl_split`).  The root case allocates a fresh interior
parent with two children (its second separator slot is the fresh
page's zero fill). -/
def insertFixup (cmp : Bytes → Bytes → Int) :
    Nat → TreeSt → Nat → Nat → Nat → Option TreeSt
  | 0, _, _, _, _ => none
  | fuel + 1, s, lId, rId, key =>
    (pGet s.pages lId).elim none (fun lhs =>
      (pGet s.pages rId).elim none (fun rhs =>
        if lhs.hdr.parent = ptrNull ∧ rhs.hdr.parent = ptrNull then
          (treeNodeAlloc s).elim none (fun r =>
            if lhs.hdr.self = ptrNull ∨ rhs.hdr.self = ptrNull then none
            else
              some { r.2 with
                pages := pSet (pSet (pSet r.2.pages r.1
                    (.intl ⟨r.1, ptrNull, ptrNull, ptrNull⟩
                      [⟨key, lhs.hdr.self⟩, ⟨0, rhs.hdr.self⟩]))
                  lId (lhs.setParent r.1)) rId (rhs.setParent r.1)
                root := r.1 })
        else
          if rhs.hdr.parent = ptrNull then
            if lhs.hdr.parent = ptrNull then none
            else
              (intlPutStep cmp
                { s with pages := pSet s.pages rId (rhs.setParent lhs.hdr.parent) }
                lhs.hdr.parent rId key).elim none
                (Sum.elim (fun s' => some s')
                  (fun q => insertFixup cmp fuel q.1 q.2.1 q.2.2.1 q.2.2.2))
          else none))

/-- `BpTree::leaf_put(page, key, val)`. -/
def leafPut (cmp : Bytes → Bytes → Int) (fuel : Nat) (s : TreeSt)
    (pid : Nat) (key val : Bytes) : Option (Bool × TreeSt) :=
  (pGet s.pages pid).elim none (fun node =>
    let kvs := node.kvs
    let sr := leafSearch cmp s.dfile kvs key
    if sr.1 then some (false, s)
    else
      let st := store_kv s.dfile key val
      if st.1 then
        if kvs.length = k_bpt_order - 1 then
          (leafSplit { s with dfile := st.2.2.2 } pid node.hdr kvs sr.2
            ⟨st.2.1, st.2.2.1⟩).elim none (fun r =>
            (pGet r.1.pages r.2).elim none (fun sib =>
              (insertFixup cmp fuel r.1 pid r.2
                (sib.kvs.getD 0 ⟨0, 0⟩).key).elim none
                (fun s3 => some (true, s3))))
        else
          some (true, { s with
            dfile := st.2.2.2
            pages := pSet s.pages pid
              (.leaf node.hdr (kvs.insertIdx sr.2 ⟨st.2.1, st.2.2.1⟩))
            nrkv := s.nrkv + 1 })
      else some (false, { s with dfile := st.2.2.2 }))

/-- `BpTree::put(key, val)`.  With a null root a failed `store_kv` or
`node_alloc` hits a `bassert` and aborts (`none`); otherwise failures
inside `leaf_put` return `false`. -/
def putF (cmp : Bytes → Bytes → Int) (fuel : Nat) (s : TreeSt)
    (key val : Bytes) : Option (Bool × TreeSt) :=
  if s.root = ptrNull then
    let st := store_kv s.dfile key val
    if st.1 then
      (treeNodeAlloc { s with dfile := st.2.2.2 }).elim none (fun r =>
        some (true, { r.2 with
          pages := pSet r.2.pages r.1
            (.leaf ⟨r.1, ptrNull, ptrNull, ptrNull⟩ [⟨st.2.1, st.2.2.1⟩])
          root := r.1
          nrkv := r.2.nrkv + 1 }))
    else none
  else
    (searchF cmp s key fuel s.root).elim none (fun pid =>
      leafPut cmp fuel s pid key val)

/-- `BpTree::contains(key)`. -/
def containsF (cmp : Bytes → Bytes → Int) (fuel : Nat) (s : TreeSt)
    (key : Bytes) : Option Bool :=
  if s.root = ptrNull then some false
  else
    (searchF cmp s key fuel s.root).elim none (fun pid =>
      (pGet s.pages pid).elim none (fun n =>
        some (leafSearch cmp s.dfile n.kvs key).1))

/-! ### Range queries (`BpTree::range`, `BpTree::Iter`) -/

/-- `BpTree::Iter`'s state: `{off_, b_off_, e_off_, cursor_, head_,
tail_}` (the constructed iterator has `off_ = b_off_ = b`,
`cursor_ = head_ = beg`). -/
structure BIter where
  off : Nat
  b_off : Nat
  e_off : Nat
  cursor : Nat
  head : Nat
  tail : Nat

/-- The default-constructed (empty) iterator. -/
def emptyBIter : BIter := ⟨0, 0, 0, ptrNull, ptrNull, ptrNull⟩

/-- The bound swap at the top of `range`: `if (from > to) std::swap`.
`View::operator>` comes from `View::operator<=>`, the raw bytewise
comparison — the template comparator `Cmp` plays no part here. -/
def rangeNorm (a b : Bytes) : Bytes × Bytes :=
  if 0 < viewCompare a b then (b, a) else (a, b)

/-- Outcome of one adjustment step of `range`: process death
(`abort`), `return {}` (`empty`), or continue. -/
inductive RStep (α : Type) where
  | abort
  | empty
  | go : α → RStep α

def RStep.elim {α β : Type} : RStep α → β → β → (α → β) → β
  | .abort, x, _, _ => x
  | .empty, _, y, _ => y
  | .go a, _, _, f => f a

/-- The `if (!_b)` adjustment of `range`: when the begin key was not
found and its position is past the leaf's last entry, move to the next
leaf (an absent non-null id is skipped only in the sense that the C
code would read an unmapped fresh page; modelled as `abort`). -/
def rangeBeg (s : TreeSt) (found : Bool) (pos pf : Nat) (lN : TNode) :
    RStep (Nat × TNode × Nat) :=
  if ¬found ∧ pos = lN.kvs.length then
    if lN.hdr.next = ptrNull then .empty
    else
      (pGet s.pages lN.hdr.next).elim .abort
        (fun lN' => .go (lN.hdr.next, lN', 0))
  else .go (pf, lN, pos)

/-- The `if (!_e)` adjustment of `range`: when the end key was not
found, step back one entry, possibly into the previous leaf. -/
def rangeEnd (s : TreeSt) (found : Bool) (pos pt : Nat) (rN : TNode) :
    RStep (Nat × TNode × Nat) :=
  if ¬found then
    if pos = 0 then
      if rN.hdr.prev = ptrNull then .empty
      else
        (pGet s.pages rN.hdr.prev).elim .abort
          (fun rN' => .go (rN.hdr.prev, rN', rN'.kvs.length - 1))
    else .go (pt, rN, pos - 1)
  else .go (pt, rN, pos)

/-- The body of `BpTree::range` after the null-root check and the
bound swap: locate both bounds, handle the empty-window case, adjust
both ends, and build the iterator `{this, l->self, r->self, beg,
end}`. -/
def rangeCore (cmp : Bytes → Bytes → Int) (fuel : Nat) (s : TreeSt)
    (f t : Bytes) : Option BIter :=
  (searchF cmp s f fuel s.root).elim none (fun pf0 =>
    (searchF cmp s t fuel s.root).elim none (fun pt0 =>
      (pGet s.pages pf0).elim none (fun lN =>
        (pGet s.pages pt0).elim none (fun rN =>
          let sb := leafSearch cmp s.dfile lN.kvs f
          let se := leafSearch cmp s.dfile rN.kvs t
          if ¬sb.1 ∧ ¬se.1 ∧ pf0 = pt0 ∧ sb.2 = lN.kvs.length ∧
              se.2 = rN.kvs.length then
            some emptyBIter
          else
            (rangeBeg s sb.1 sb.2 pf0 lN).elim none (some emptyBIter)
              (fun bres =>
                (rangeEnd s se.1 se.2 pt0 rN).elim none (some emptyBIter)
                  (fun eres =>
                    some ⟨bres.2.2, bres.2.2, eres.2.2,
                      bres.2.1.hdr.self, bres.2.1.hdr.self,
                      eres.2.1.hdr.self⟩))))))

/-- `BpTree::range(from, to)`. -/
def rangeF (cmp : Bytes → Bytes → Int) (fuel : Nat) (s : TreeSt)
    (f t : Bytes) : Option BIter :=
  if s.root = ptrNull then some emptyBIter
  else rangeCore cmp fuel s (rangeNorm f t).1 (rangeNorm f t).2

/-! ### Blob frame lemmas: a `store` into previously clear pages leaves
every allocated blob's bytes (and allocation) untouched. -/

theorem size_to_page_bounds (n : Nat) :
    n ≤ size_to_page n * k_data_page_sz ∧ (0 < n → 0 < size_to_page n) := by
  unfold size_to_page
  rw [Nat.shiftRight_eq_div_pow,
    show k_data_page_sz - 1 = 2 ^ 6 - 1 from rfl, and_mask_eq_mod,
    show (2 : Nat) ^ 6 = 64 from rfl, show k_data_page_sz = 64 from rfl]
  constructor
  · by_cases h : n % 64 ≠ 0
    · rw [if_pos h]
      omega
    · rw [if_neg h]
      omega
  · intro hn
    by_cases h : n % 64 ≠ 0
    · rw [if_pos h]
      omega
    · rw [if_neg h]
      omega

/-- Storing a fresh blob does not change the bytes any allocated blob
reads: the new run was clear, allocated runs are set, so the page
ranges — hence the byte ranges — are disjoint. -/
theorem loadData_store_frame {s s' : DataSt} {data : Bytes} {id : Nat}
    (hwf : DataWF s) (hlen : data.length ≤ k_max_kv_sz)
    (hpos : 0 < data.length)
    (h : s.store data = some (id, s')) {q : Nat}
    (hq : BlobAllocated s q) : loadData s' q = loadData s q := by
  rw [loadData_eq, loadData_eq]
  by_cases h0 : ptr_length q = 0
  · rw [h0]
    rfl
  · obtain ⟨ck0, p0, henc, hde, hdi, hdl, hck0, hp01, hp02, hclear, hroom,
      hbits, hused, hlastc, hwf', hfile⟩ := DataSt.store_spec hwf hlen h
    obtain ⟨hqck, hqlo, hqhi, hqset⟩ := hq
    apply DataSt.store_frame hwf hlen h
    have hsq := size_to_page_bounds (ptr_length q)
    have hsd := size_to_page_bounds data.length
    have hsq1 : ptr_length q ≤ size_to_page (ptr_length q) * 64 := by
      have := hsq.1
      rw [show k_data_page_sz = 64 from rfl] at this
      exact this
    have hsd1 : data.length ≤ size_to_page data.length * 64 := by
      have := hsd.1
      rw [show k_data_page_sz = 64 from rfl] at this
      exact this
    have hA : data_file_off q = 12288 + ptr_chunk q * 536870912
        + ptr_id q * 64 := rfl
    have hB : data_file_off id = 12288 + ptr_chunk id * 536870912
        + ptr_id id * 64 := rfl
    have hqhi' : ptr_id q + size_to_page (ptr_length q) ≤ 8388608 := hqhi
    have hp02' : p0 + size_to_page data.length ≤ 8388608 := hp02
    rcases Nat.lt_trichotomy (ptr_chunk q) (ptr_chunk id) with hc | hc | hc
    · left
      rw [hA, hB]
      omega
    · -- same chunk: the bitmap runs are disjoint, because the new run
      -- was clear while `q`'s run is set
      have hstpq : 0 < size_to_page (ptr_length q) := hsq.2 (by omega)
      have hstpd : 0 < size_to_page data.length := hsd.2 hpos
      have hdisj : ptr_id q + size_to_page (ptr_length q) ≤ p0 ∨
          p0 + size_to_page data.length ≤ ptr_id q := by
        by_contra hcon
        push_neg at hcon
        obtain ⟨h1, h2⟩ := hcon
        have hset := hqset (max (ptr_id q) p0) (by omega) (by omega)
        have hcl := hclear (max (ptr_id q) p0) (by omega) (by omega)
        rw [hc, hde] at hset
        rw [hset] at hcl
        exact Bool.noConfusion hcl
      rcases hdisj with hd | hd
      · left
        rw [hA, hB, hc, hde, hdi]
        omega
      · right
        rw [hA, hB, hc, hde, hdi]
        omega
    · right
      rw [hA, hB, hdi, hde]
      omega

/-- Storing a fresh blob keeps every allocated blob allocated (bits
only get set). -/
theorem BlobAllocated_store {s s' : DataSt} {data : Bytes} {id : Nat}
    (hwf : DataWF s) (hlen : data.length ≤ k_max_kv_sz)
    (h : s.store data = some (id, s')) {q : Nat}
    (hq : BlobAllocated s q) : BlobAllocated s' q := by
  obtain ⟨ck0, p0, henc, hde, hdi, hdl, hck0, hp01, hp02, hclear, hroom,
    hbits, hused, hlastc, hwf', hfile⟩ := DataSt.store_spec hwf hlen h
  obtain ⟨hqck, hqlo, hqhi, hqset⟩ := hq
  refine ⟨hqck, hqlo, hqhi, ?_⟩
  intro j hj1 hj2
  rw [hbits]
  show (if ptr_chunk q = ck0 then
    (fun j => if p0 ≤ j ∧ j < p0 + size_to_page data.length then true
      else s.bits ck0 j) else s.bits (ptr_chunk q)) j = true
  by_cases hck : ptr_chunk q = ck0
  · rw [if_pos hck]
    show (if p0 ≤ j ∧ j < p0 + size_to_page data.length then true
      else s.bits ck0 j) = true
    by_cases hin : p0 ≤ j ∧ j < p0 + size_to_page data.length
    · rw [if_pos hin]
    · rw [if_neg hin, ← hck]
      exact hqset j hj1 hj2
  · rw [if_neg hck]
    exact hqset j hj1 hj2

/-- The freshly stored blob is allocated in the post state. -/
theorem BlobAllocated_store_self {s s' : DataSt} {data : Bytes} {id : Nat}
    (hwf : DataWF s) (hlen : data.length ≤ k_max_kv_sz)
    (h : s.store data = some (id, s')) : BlobAllocated s' id := by
  obtain ⟨ck0, p0, henc, hde, hdi, hdl, hck0, hp01, hp02, hclear, hroom,
    hbits, hused, hlastc, hwf', hfile⟩ := DataSt.store_spec hwf hlen h
  refine ⟨by rw [hde]; exact hck0, by rw [hdi]; exact hp01,
    by rw [hdi, hdl]; exact hp02, ?_⟩
  intro j hj1 hj2
  rw [hdi] at hj1 hj2
  rw [hdl] at hj2
  rw [hbits, hde]
  show (if ck0 = ck0 then
    (fun j => if p0 ≤ j ∧ j < p0 + size_to_page data.length then true
      else s.bits ck0 j) else s.bits ck0) j = true
  rw [if_pos rfl]
  exact if_pos ⟨hj1, hj2⟩

/-- `DataWF` survives a successful store. -/
theorem DataWF_store {s s' : DataSt} {data : Bytes} {id : Nat}
    (hwf : DataWF s) (hlen : data.length ≤ k_max_kv_sz)
    (h : s.store data = some (id, s')) : DataWF s' :=
  (DataSt.store_spec hwf hlen h).choose_spec.choose_spec.2.2.2.2.2.2.2.2.2.2.2.2.1

/-! ### Binary-search correctness over sorted keys (bytewise
comparator) -/

/-- The first `n` decoded keys are strictly increasing. -/
def SortedKeys (d : DataSt) (keys : List Nat) (n : Nat) : Prop :=
  ∀ i j, i < j → j < n →
    viewCompare (loadData d (keys.getD i 0)) (loadData d (keys.getD j 0)) < 0

theorem getD_eq_getElem' {α : Type} {l : List α} {i : Nat} (h : i < l.length)
    (a : α) : l.getD i a = l[i] := by
  rw [List.getD_eq_getElem?_getD, List.getElem?_eq_getElem h]
  rfl

theorem map_insertIdx {α β : Type} (f : α → β) (l : List α) :
    ∀ (v : Nat) (x : α),
    (l.insertIdx v x).map f = (l.map f).insertIdx v (f x) := by
  induction l with
  | nil =>
    intro v x
    cases v with
    | zero => rfl
    | succ v => rfl
  | cons hd tl ih =>
    intro v x
    cases v with
    | zero => rfl
    | succ v =>
      rw [List.insertIdx_succ_cons, List.map_cons, List.map_cons,
        List.insertIdx_succ_cons, ih v x]

/-- `BpTree::bsearch`'s loop on strictly increasing keys computes the
lower bound of `target`: all keys left of the result are `< target`,
all keys from the result on are `≥ target`. -/
theorem bsearchGo_sorted {d : DataSt} {keys : List Nat} {target : Bytes}
    {n : Nat} (hs : SortedKeys d keys n) :
    ∀ (fuel : Nat) (l r : Int), 0 ≤ l → l ≤ r + 1 → r < (n : Int) →
      (r + 1 - l).toNat ≤ fuel →
      (∀ i : Nat, (i : Int) < l →
        viewCompare (loadData d (keys.getD i 0)) target < 0) →
      (∀ i : Nat, r < (i : Int) → i < n →
        0 ≤ viewCompare (loadData d (keys.getD i 0)) target) →
      ∃ v : Nat, bsearchGo viewCompare d keys target fuel l r = (v : Int) ∧
        v ≤ n ∧
        (∀ i : Nat, i < v →
          viewCompare (loadData d (keys.getD i 0)) target < 0) ∧
        (∀ i : Nat, v ≤ i → i < n →
          0 ≤ viewCompare (loadData d (keys.getD i 0)) target) := by
  intro fuel
  induction fuel with
  | zero =>
    intro l r hl hlr hr hfuel h1 h2
    refine ⟨l.toNat, ?_, by omega, fun i hi => h1 i (by omega),
      fun i hi1 hi2 => h2 i (by omega) hi2⟩
    rw [show bsearchGo viewCompare d keys target 0 l r = l from rfl]
    omega
  | succ fuel ih =>
    intro l r hl hlr hr hfuel h1 h2
    rw [bsearchGo]
    by_cases hcond : l ≤ r
    · rw [if_pos hcond]
      by_cases hc : viewCompare
          (loadData d (keys.getD (l + (r - l) / 2).toNat 0)) target ≥ 0
      · rw [if_pos hc]
        apply ih l (l + (r - l) / 2 - 1) hl (by omega) (by omega)
          (by omega) h1
        intro i hi1 hi2
        by_cases him : (i : Int) ≤ r
        · have hmn : (l + (r - l) / 2).toNat ≤ i := by omega
          rcases Nat.eq_or_lt_of_le hmn with he | hlt
          · rw [← he]
            exact hc
          · by_contra hneg
            push_neg at hneg
            have := viewCompare_trans_lt
              (hs (l + (r - l) / 2).toNat i hlt hi2) hneg
            omega
        · exact h2 i (by omega) hi2
      · rw [if_neg hc]
        push_neg at hc
        apply ih (l + (r - l) / 2 + 1) r (by omega) (by omega) hr (by omega)
        · intro i hi
          by_cases hil : (i : Int) < l
          · exact h1 i hil
          · have hin : i < n := by omega
            rcases Nat.lt_trichotomy i (l + (r - l) / 2).toNat with
              hlt | he | hgt
            · have hmn2 : (l + (r - l) / 2).toNat < n := by omega
              exact viewCompare_trans_lt (hs i _ hlt hmn2) hc
            · rw [he]
              exact hc
            · omega
        · exact h2
    · rw [if_neg hcond]
      refine ⟨l.toNat, by omega, by omega, fun i hi => h1 i (by omega),
        fun i hi1 hi2 => h2 i (by omega) hi2⟩

/-- `BpTree::bsearch` on strictly increasing keys: the result is the
lower-bound position of `target` among the first `n` keys. -/
theorem bsearch_sorted {d : DataSt} {keys : List Nat} {target : Bytes}
    {n : Nat} (hs : SortedKeys d keys n) :
    bsearch viewCompare d keys n target ≤ n ∧
      (∀ i : Nat, i < bsearch viewCompare d keys n target →
        viewCompare (loadData d (keys.getD i 0)) target < 0) ∧
      (∀ i : Nat, bsearch viewCompare d keys n target ≤ i → i < n →
        0 ≤ viewCompare (loadData d (keys.getD i 0)) target) := by
  obtain ⟨v, hv, hvn, hlow, hhigh⟩ := bsearchGo_sorted hs (n + 1) 0
    ((n : Int) - 1) (by omega) (by omega) (by omega) (by omega)
    (fun i hi => absurd hi (by omega))
    (fun i hi1 hi2 => absurd hi1 (by omega))
  unfold bsearch
  rw [show Int.ofNat n = (n : Int) from rfl, hv]
  rw [show (v : Int).toNat = v from rfl]
  exact ⟨hvn, hlow, hhigh⟩

theorem viewCompare_lt_of_le_of_lt {a b t : Bytes}
    (h1 : 0 ≤ viewCompare a t) (h2 : viewCompare a b < 0) :
    0 < viewCompare b t := by
  rcases lt_trichotomy (viewCompare b t) 0 with h | h | h
  · have := viewCompare_trans_lt h2 h
    omega
  · rw [viewCompare_eq_zero_iff] at h
    subst h
    omega
  · exact h

/-- When `leaf_search` reports "not found" on a sorted leaf, the key is
strictly between positions `pos - 1` and `pos`; in particular no entry
decodes equal to the key. -/
theorem leafSearch_false_spec {d : DataSt} {kvs : List Kv} {key : Bytes}
    (hs : SortedKeys d (kvs.map Kv.key) kvs.length)
    (hf : (leafSearch viewCompare d kvs key).1 = false) :
    (leafSearch viewCompare d kvs key).2 ≤ kvs.length ∧
      (∀ i, i < (leafSearch viewCompare d kvs key).2 →
        viewCompare (loadData d ((kvs.map Kv.key).getD i 0)) key < 0) ∧
      (∀ i, (leafSearch viewCompare d kvs key).2 ≤ i → i < kvs.length →
        0 < viewCompare (loadData d ((kvs.map Kv.key).getD i 0)) key) := by
  obtain ⟨hvn, hlow, hhigh⟩ :=
    @bsearch_sorted d (kvs.map Kv.key) key kvs.length hs
  have hps : leafSearch viewCompare d kvs key =
      (if bsearch viewCompare d (kvs.map Kv.key) kvs.length key
            < kvs.length ∧
          viewCompare (loadData d ((kvs.map Kv.key).getD
            (bsearch viewCompare d (kvs.map Kv.key) kvs.length key) 0))
            key = 0
        then (true, bsearch viewCompare d (kvs.map Kv.key) kvs.length key)
        else (false, bsearch viewCompare d (kvs.map Kv.key) kvs.length key))
      := rfl
  by_cases hc : bsearch viewCompare d (kvs.map Kv.key) kvs.length key
        < kvs.length ∧
      viewCompare (loadData d ((kvs.map Kv.key).getD
        (bsearch viewCompare d (kvs.map Kv.key) kvs.length key) 0)) key = 0
  · rw [hps, if_pos hc] at hf
    exact Bool.noConfusion hf
  · rw [hps, if_neg hc]
    refine ⟨hvn, hlow, ?_⟩
    intro i hi1 hi2
    rcases Nat.eq_or_lt_of_le hi1 with he | hlt
    · have he' : bsearch viewCompare d (kvs.map Kv.key) kvs.length key
          = i := he
      have h0 := hhigh i hi1 hi2
      have hne : ¬viewCompare (loadData d ((kvs.map Kv.key).getD i 0))
          key = 0 := by
        intro h0'
        refine hc ⟨?_, ?_⟩
        · rw [he']
          exact hi2
        · rw [he']
          exact h0'
      omega
    · exact viewCompare_lt_of_le_of_lt
        (hhigh _ (Nat.le_refl _) (by omega)) (hs _ i hlt hi2)

/-- On a sorted leaf, if position `v` decodes equal to the key, then
`leaf_search` finds it there. -/
theorem leafSearch_found_at {d : DataSt} {kvs : List Kv} {key : Bytes}
    {v : Nat} (hs : SortedKeys d (kvs.map Kv.key) kvs.length)
    (hv : v < kvs.length)
    (heq : viewCompare (loadData d ((kvs.map Kv.key).getD v 0)) key = 0) :
    leafSearch viewCompare d kvs key = (true, v) := by
  obtain ⟨hvn, hlow, hhigh⟩ :=
    @bsearch_sorted d (kvs.map Kv.key) key kvs.length hs
  have hvpos : bsearch viewCompare d (kvs.map Kv.key) kvs.length key = v := by
    rcases Nat.lt_trichotomy
      (bsearch viewCompare d (kvs.map Kv.key) kvs.length key) v with
      h | h | h
    · have h1 := hhigh _ (Nat.le_refl _) (by omega)
      have h3 := hs _ v h hv
      rw [viewCompare_eq_zero_iff] at heq
      rw [heq] at h3
      omega
    · exact h
    · have := hlow v h
      omega
  have hps : leafSearch viewCompare d kvs key =
      (if bsearch viewCompare d (kvs.map Kv.key) kvs.length key
            < kvs.length ∧
          viewCompare (loadData d ((kvs.map Kv.key).getD
            (bsearch viewCompare d (kvs.map Kv.key) kvs.length key) 0))
            key = 0
        then (true, bsearch viewCompare d (kvs.map Kv.key) kvs.length key)
        else (false, bsearch viewCompare d (kvs.map Kv.key) kvs.length key))
      := rfl
  rw [hps, if_pos ⟨by rw [hvpos]; exact hv, by rw [hvpos]; exact heq⟩,
    hvpos]

/-- `bsearchGo` only looks at the keys through `loadData`. -/
theorem bsearchGo_congr {cmp : Bytes → Bytes → Int} {d d' : DataSt}
    {keys : List Nat} {target : Bytes}
    (h : ∀ i, i < keys.length →
      loadData d' (keys.getD i 0) = loadData d (keys.getD i 0)) :
    ∀ (fuel : Nat) (l r : Int), 0 ≤ l → r < (keys.length : Int) →
      bsearchGo cmp d' keys target fuel l r
        = bsearchGo cmp d keys target fuel l r := by
  intro fuel
  induction fuel with
  | zero =>
    intro l r _ _
    rfl
  | succ fuel ih =>
    intro l r hl hr
    rw [bsearchGo, bsearchGo]
    by_cases hlr : l ≤ r
    · rw [if_pos hlr, if_pos hlr,
        h (l + (r - l) / 2).toNat (by omega)]
      by_cases hc : cmp (loadData d
          (keys.getD (l + (r - l) / 2).toNat 0)) target ≥ 0
      · rw [if_pos hc, if_pos hc, ih l (l + (r - l) / 2 - 1) hl (by omega)]
      · rw [if_neg hc, if_neg hc, ih (l + (r - l) / 2 + 1) r (by omega) hr]
    · rw [if_neg hlr, if_neg hlr]

theorem bsearch_congr {cmp : Bytes → Bytes → Int} {d d' : DataSt}
    {keys : List Nat} {target : Bytes} {n : Nat} (hn : n ≤ keys.length)
    (h : ∀ i, i < keys.length →
      loadData d' (keys.getD i 0) = loadData d (keys.getD i 0)) :
    bsearch cmp d' keys n target = bsearch cmp d keys n target := by
  unfold bsearch
  rw [show Int.ofNat n = (n : Int) from rfl,
    bsearchGo_congr h (n + 1) 0 ((n : Int) - 1) (by omega) (by omega)]

theorem intlSearch_congr {d d' : DataSt} {kcs : List Kc} {key : Bytes}
    (h : ∀ i, i < kcs.length →
      loadData d' ((kcs.map Kc.key).getD i 0)
        = loadData d ((kcs.map Kc.key).getD i 0)) :
    intlSearch viewCompare d' kcs key = intlSearch viewCompare d kcs key := by
  have hlen : kcs.length - 1 ≤ (kcs.map Kc.key).length := by
    rw [List.length_map]
    omega
  have hb := @bsearch_congr viewCompare d d' (kcs.map Kc.key) key
    (kcs.length - 1) hlen (by rw [List.length_map]; exact h)
  simp only [intlSearch]
  rw [hb]
  by_cases hlt : bsearch viewCompare d (kcs.map Kc.key) (kcs.length - 1) key
      < kcs.length - 1
  · rw [h _ (by omega)]
  · rw [if_neg (fun hcc => hlt hcc.1), if_neg (fun hcc => hlt hcc.1)]

/-- A successful `search` lands on a leaf page present in the map. -/
theorem searchF_some_leaf {s : TreeSt} {key : Bytes} {pid : Nat} :
    ∀ {fuel cur : Nat}, searchF viewCompare s key fuel cur = some pid →
      ∃ n, pGet s.pages pid = some n ∧ n.isLeaf = true := by
  intro fuel
  induction fuel with
  | zero =>
    intro cur h
    exact absurd h (by simp [searchF])
  | succ fuel ih =>
    intro cur h
    rw [searchF] at h
    by_cases hnull : cur = ptrNull
    · rw [if_pos hnull] at h
      exact absurd h (by simp)
    · rw [if_neg hnull] at h
      rcases hg : pGet s.pages cur with _ | n
      · rw [hg] at h
        exact absurd h (by simp)
      · rw [hg] at h
        simp only [Option.elim_some] at h
        by_cases hlf : n.isLeaf = true
        · rw [if_pos hlf] at h
          obtain rfl : cur = pid := Option.some.inj h
          exact ⟨n, hg, hlf⟩
        · rw [if_neg hlf] at h
          exact ih h

/-- `search` is insensitive to state changes that keep every interior
node intact, keep leaf pages leaves, and preserve the decoded bytes of
every node's keys. -/
theorem searchF_frame {s s' : TreeSt} {key : Bytes} {pid : Nat}
    (hpages : ∀ id n, pGet s.pages id = some n → n.isLeaf = false →
      pGet s'.pages id = some n)
    (hleaf : ∀ id n, pGet s.pages id = some n → n.isLeaf = true →
      ∃ n', pGet s'.pages id = some n' ∧ n'.isLeaf = true)
    (hdata : ∀ id n, pGet s.pages id = some n → ∀ i, i < n.kcs.length →
      loadData s'.dfile ((n.kcs.map Kc.key).getD i 0)
        = loadData s.dfile ((n.kcs.map Kc.key).getD i 0)) :
    ∀ {fuel cur : Nat}, searchF viewCompare s key fuel cur = some pid →
      searchF viewCompare s' key fuel cur = some pid := by
  intro fuel
  induction fuel with
  | zero =>
    intro cur h
    exact absurd h (by simp [searchF])
  | succ fuel ih =>
    intro cur h
    rw [searchF] at h ⊢
    by_cases hnull : cur = ptrNull
    · rw [if_pos hnull] at h
      exact absurd h (by simp)
    · rw [if_neg hnull] at h ⊢
      rcases hg : pGet s.pages cur with _ | n
      · rw [hg] at h
        exact absurd h (by simp)
      · rw [hg] at h
        simp only [Option.elim_some] at h
        by_cases hlf : n.isLeaf = true
        · rw [if_pos hlf] at h
          obtain ⟨n', hn', hlf'⟩ := hleaf cur n hg hlf
          rw [hn']
          simp only [Option.elim_some]
          rw [if_pos hlf']
          exact h
        · have hlf2 : n.isLeaf = false := by
            cases hb : n.isLeaf
            · rfl
            · exact absurd hb hlf
          rw [if_neg hlf] at h
          rw [hpages cur n hg hlf2]
          simp only [Option.elim_some]
          rw [if_neg hlf]
          rw [intlSearch_congr (hdata cur n hg)]
          exact ih h

/-- Cursor well-formedness of the node file (like `DataWF`). -/
def NodeWF (s : NodeSt) : Prop :=
  ∀ ck, indexOff ≤ s.lastC ck ∧ s.lastC ck ≤ k_index_bitmap_bits

/-- A successful node allocation returns a well-shaped non-null encoded
pointer and only touches the allocator (`bits/lastC/used` of one
chunk). -/
theorem nodeFindSpaceGo_some {s : NodeSt} (hwf : NodeWF s) :
    ∀ {fuel : Nat} {id : Nat} {s' : NodeSt},
      nodeFindSpaceGo fuel s = some (id, s') →
      ∃ ck p, ck < k_nr_index_chunk ∧ p < k_index_bitmap_bits ∧
        id = ptr_encode k_index_page_sz ck p := by
  intro fuel
  induction fuel with
  | zero =>
    intro id s' h
    exact absurd h (by simp [nodeFindSpaceGo])
  | succ fuel ih =>
    intro id s' h
    rw [nodeFindSpaceGo] at h
    by_cases hfull : s.used ((s.lastChunk + 1) % k_nr_index_chunk)
        = k_index_page_per_chunk
    · rw [if_pos hfull] at h
      exact ih h
    · rw [if_neg hfull] at h
      rcases htc : nodeTryChunk s ((s.lastChunk + 1) % k_nr_index_chunk)
        with _ | pc
      · rw [htc] at h
        simp only [Option.elim_none] at h
        exact ih h
      · rw [htc] at h
        simp only [Option.elim_some] at h
        obtain rfl : pc = (id, s') := Option.some.inj h
        unfold nodeTryChunk at htc
        rcases hgc : (nodeChunk s ((s.lastChunk + 1) % k_nr_index_chunk)).get 1
          with _ | lc
        · rw [hgc] at htc
          exact absurd htc (by simp)
        · rw [hgc] at htc
          simp only [Option.elim_some, Option.some.injEq,
            Prod.mk.injEq] at htc
          obtain ⟨hidv, _⟩ := htc
          obtain ⟨hl1, hl2, _, _, _, _, _, _⟩ := ChunkSt.get_spec
            (by show indexOff < k_index_bitmap_bits; decide)
            (hwf _).1 (hwf _).2 hgc
          refine ⟨(s.lastChunk + 1) % k_nr_index_chunk, lc.1,
            Nat.mod_lt _ (by decide), ?_, hidv.symm⟩
          have : lc.1 + 1 ≤ k_index_bitmap_bits := hl2
          omega

theorem ptr_encode_ne_null {len ck p : Nat} (hl : len < 2 ^ 24 - 1)
    (hc : ck < 2 ^ 11) (hp : p < 2 ^ 29) :
    ¬ptr_encode len ck p = ptrNull := by
  rw [ptr_encode_eq (by omega) hc hp]
  intro h
  have hp' : p < 536870912 := hp
  have h' : (len * 2048 + ck) * 536870912 + p = 18446744073709551615 := h
  have h1 : len ≤ 16777214 := by
    have : len < 16777215 := hl
    omega
  have h2 : len * 2048 + ck ≤ 16777214 * 2048 + 2047 := by
    have h3 : len * 2048 ≤ 16777214 * 2048 := Nat.mul_le_mul_right 2048 h1
    have hc' : ck < 2048 := hc
    omega
  have h4 : (len * 2048 + ck) * 536870912
      ≤ (16777214 * 2048 + 2047) * 536870912 :=
    Nat.mul_le_mul_right 536870912 h2
  have h5 : (len * 2048 + ck) * 536870912 + p
      < (16777214 * 2048 + 2047) * 536870912 + 536870912 :=
    Nat.lt_of_le_of_lt (Nat.add_le_add_right h4 p)
      (Nat.add_lt_add_left hp' _)
  rw [h'] at h5
  exact absurd (Nat.lt_of_lt_of_le h5 (by decide)) (lt_irrefl _)

/-- Both layout puns read the same key column. -/
theorem TNode.kvs_keys_eq_kcs_keys (n : TNode) :
    n.kvs.map Kv.key = n.kcs.map Kc.key := by
  cases n with
  | leaf h kvs =>
    show kvs.map Kv.key
      = (kvs.map (fun kv => Kc.mk kv.key kv.val)).map Kc.key
    rw [List.map_map]
    rfl
  | intl h kcs =>
    show (kcs.map (fun kc => Kv.mk kc.key kc.child)).map Kv.key
      = kcs.map Kc.key
    rw [List.map_map]
    rfl

theorem TNode.kvs_length_eq (n : TNode) : n.kvs.length = n.kcs.length := by
  cases n with
  | leaf h kvs =>
    show kvs.length = (kvs.map (fun kv => Kc.mk kv.key kv.val)).length
    rw [List.length_map]
  | intl h kcs =>
    show (kcs.map (fun kc => Kv.mk kc.key kc.child)).length = kcs.length
    rw [List.length_map]

/-- Well-formedness needed for the put/get round trip: both allocator
cursors in range, every key pointer of every node allocated in the
data file, and every leaf's keys strictly increasing. -/
def TreeWF (s : TreeSt) : Prop :=
  DataWF s.dfile ∧ NodeWF s.nfile ∧
  (∀ id n, pGet s.pages id = some n → ∀ kc ∈ n.kcs,
    BlobAllocated s.dfile kc.key) ∧
  (∀ id n, pGet s.pages id = some n → n.isLeaf = true →
    SortedKeys s.dfile (n.kvs.map Kv.key) n.kvs.length)

theorem wf_key_allocated {s : TreeSt}
    (hwf3 : ∀ id n, pGet s.pages id = some n → ∀ kc ∈ n.kcs,
      BlobAllocated s.dfile kc.key)
    {id : Nat} {n : TNode} (hg : pGet s.pages id = some n) {i : Nat}
    (hi : i < n.kcs.length) :
    BlobAllocated s.dfile ((n.kcs.map Kc.key).getD i 0) := by
  rw [getD_eq_getElem' (by rw [List.length_map]; exact hi),
    List.getElem_map]
  exact hwf3 id n hg _ (List.getElem_mem hi)

theorem SortedKeys_congr {d d' : DataSt} {keys : List Nat} {n : Nat}
    (h : ∀ i, i < n → loadData d' (keys.getD i 0) = loadData d (keys.getD i 0))
    (hs : SortedKeys d keys n) : SortedKeys d' keys n := by
  intro i j hij hj
  rw [h i (by omega), h j hj]
  exact hs i j hij hj

theorem getD_insertIdx_lt {α : Type} (x d0 : α) :
    ∀ (l : List α) (v i : Nat), i < v → v ≤ l.length →
      (l.insertIdx v x).getD i d0 = l.getD i d0 := by
  intro l
  induction l with
  | nil =>
    intro v i hi hv
    rw [List.length_nil] at hv
    omega
  | cons hd tl ih =>
    intro v i hi hv
    cases v with
    | zero => omega
    | succ v =>
      rw [List.insertIdx_succ_cons]
      cases i with
      | zero => rfl
      | succ i =>
        rw [List.getD_cons_succ, List.getD_cons_succ]
        exact ih v i (by omega) (by
          rw [List.length_cons] at hv
          omega)

theorem getD_insertIdx_self {α : Type} (x d0 : α) :
    ∀ (l : List α) (v : Nat), v ≤ l.length →
      (l.insertIdx v x).getD v d0 = x := by
  intro l
  induction l with
  | nil =>
    intro v hv
    have : v = 0 := by
      rw [List.length_nil] at hv
      omega
    subst this
    rfl
  | cons hd tl ih =>
    intro v hv
    cases v with
    | zero => rfl
    | succ v =>
      rw [List.insertIdx_succ_cons, List.getD_cons_succ]
      exact ih v (by
        rw [List.length_cons] at hv
        omega)

theorem getD_insertIdx_gt {α : Type} (x d0 : α) :
    ∀ (l : List α) (v i : Nat), v ≤ l.length → v < i →
      (l.insertIdx v x).getD i d0 = l.getD (i - 1) d0 := by
  intro l
  induction l with
  | nil =>
    intro v i hv hi
    have hv0 : v = 0 := by
      rw [List.length_nil] at hv
      omega
    subst hv0
    cases i with
    | zero => omega
    | succ i =>
      rfl
  | cons hd tl ih =>
    intro v i hv hi
    cases v with
    | zero =>
      cases i with
      | zero => omega
      | succ i => rfl
    | succ v =>
      cases i with
      | zero => omega
      | succ i =>
        rw [List.insertIdx_succ_cons, List.getD_cons_succ]
        rw [ih v i (by
          rw [List.length_cons] at hv
          omega) (by omega)]
        cases i with
        | zero => omega
        | succ i => rfl

/-- Inserting an entry whose key decodes to `key` at its lower-bound
position keeps the leaf's keys strictly increasing. -/
theorem SortedKeys_insert {d : DataSt} {kvs : List Kv} {key : Bytes}
    {x : Kv} {pos : Nat}
    (hs : SortedKeys d (kvs.map Kv.key) kvs.length)
    (hpos : pos ≤ kvs.length)
    (hx : loadData d x.key = key)
    (hlow : ∀ i, i < pos →
      viewCompare (loadData d ((kvs.map Kv.key).getD i 0)) key < 0)
    (hhigh : ∀ i, pos ≤ i → i < kvs.length →
      0 < viewCompare (loadData d ((kvs.map Kv.key).getD i 0)) key) :
    SortedKeys d ((kvs.insertIdx pos x).map Kv.key)
      (kvs.insertIdx pos x).length := by
  have hlen : (kvs.insertIdx pos x).length = kvs.length + 1 :=
    List.length_insertIdx pos kvs hpos
  have hmaplen : (kvs.map Kv.key).length = kvs.length := List.length_map _ _
  have hget : ∀ i, i < kvs.length + 1 →
      ((kvs.insertIdx pos x).map Kv.key).getD i 0
      = if i < pos then (kvs.map Kv.key).getD i 0
        else if i = pos then x.key
        else (kvs.map Kv.key).getD (i - 1) 0 := by
    intro i hi
    rw [map_insertIdx]
    by_cases h1 : i < pos
    · rw [if_pos h1, getD_insertIdx_lt x.key 0 _ pos i h1
        (by rw [hmaplen]; exact hpos)]
    · by_cases h2 : i = pos
      · rw [if_neg h1, if_pos h2, h2, getD_insertIdx_self x.key 0 _ pos
          (by rw [hmaplen]; exact hpos)]
      · rw [if_neg h1, if_neg h2, getD_insertIdx_gt x.key 0 _ pos i
          (by rw [hmaplen]; exact hpos) (by omega)]
  intro i j hij hj
  rw [hlen] at hj
  rw [hget i (by omega), hget j (by omega)]
  by_cases hi1 : i < pos
  · rw [if_pos hi1]
    by_cases hj1 : j < pos
    · rw [if_pos hj1]
      exact hs i j hij (by omega)
    · by_cases hj2 : j = pos
      · rw [if_neg hj1, if_pos hj2, hx]
        exact hlow i hi1
      · rw [if_neg hj1, if_neg hj2]
        exact hs i (j - 1) (by omega) (by omega)
  · by_cases hi2 : i = pos
    · rw [if_neg hi1, if_pos hi2,
        if_neg (show ¬j < pos by omega), if_neg (show ¬j = pos by omega),
        hx]
      have := hhigh (j - 1) (by omega) (by omega)
      rw [viewCompare_neg]
      omega
    · rw [if_neg hi1, if_neg hi2,
        if_neg (show ¬j < pos by omega), if_neg (show ¬j = pos by omega)]
      exact hs (i - 1) (j - 1) (by omega) (by omega)

/-- Net effect of `store_kv`'s two successful stores: both fresh blobs
read back, every previously allocated blob is untouched (bytes and
allocation), and the cursor invariant survives. -/
theorem store2_facts {d d1 d' : DataSt} {key val : Bytes} {pk pv : Nat}
    (hwf : DataWF d)
    (hk1 : 0 < key.length) (hk2 : key.length ≤ k_max_kv_sz)
    (hv1 : 0 < val.length) (hv2 : val.length ≤ k_max_kv_sz)
    (hkey : d.store key = some (pk, d1))
    (hval : d1.store val = some (pv, d')) :
    loadData d' pk = key ∧ loadData d' pv = val ∧
      (∀ q, BlobAllocated d q → loadData d' q = loadData d q) ∧
      (∀ q, BlobAllocated d q → BlobAllocated d' q) ∧ DataWF d' := by
  have hwf1 : DataWF d1 := DataWF_store hwf hk2 hkey
  have hcol1 : loadData d1 pk = key := DataSt.store_collect hwf hk2 hkey
  have hallock : BlobAllocated d1 pk := BlobAllocated_store_self hwf hk2 hkey
  refine ⟨(loadData_store_frame hwf1 hv2 hv1 hval hallock).trans hcol1,
    DataSt.store_collect hwf1 hv2 hval, ?_, ?_, DataWF_store hwf1 hv2 hval⟩
  · intro q hq
    exact (loadData_store_frame hwf1 hv2 hv1 hval
      (BlobAllocated_store hwf hk2 hkey hq)).trans
      (loadData_store_frame hwf hk2 hk1 hkey hq)
  · intro q hq
    exact BlobAllocated_store hwf1 hv2 hval
      (BlobAllocated_store hwf hk2 hkey hq)

/-- `leaf_put` into a leaf with room (the in-place case), followed by
`get`: the freshly inserted pair is found again and the value blob
reads back intact. -/
theorem leafPut_inplace_get {fuel : Nat} {s s' : TreeSt} {pid : Nat}
    {key val : Bytes}
    (hwf : TreeWF s)
    (hk1 : 0 < key.length) (hk2 : key.length ≤ k_max_kv_sz)
    (hv1 : 0 < val.length) (hv2 : val.length ≤ k_max_kv_sz)
    (hroot : ¬s.root = ptrNull)
    (hsearch : searchF viewCompare s key fuel s.root = some pid)
    (hroom : ∀ node, pGet s.pages pid = some node →
      node.kvs.length ≠ k_bpt_order - 1)
    (hlp : leafPut viewCompare fuel s pid key val = some (true, s')) :
    getF viewCompare fuel s' key = some val := by
  obtain ⟨hwfd, hwfn, hwf3, hwf4⟩ := hwf
  obtain ⟨n0, hg0, hlf0⟩ := searchF_some_leaf hsearch
  unfold leafPut at hlp
  rw [hg0] at hlp
  simp only [Option.elim_some] at hlp
  by_cases hfound : (leafSearch viewCompare s.dfile n0.kvs key).1 = true
  · rw [if_pos hfound] at hlp
    exact absurd (congrArg Prod.fst (Option.some.inj hlp)) (by simp)
  · have hfalse : (leafSearch viewCompare s.dfile n0.kvs key).1 = false :=
      eq_false_of_ne_true hfound
    rw [if_neg hfound] at hlp
    rcases hks : s.dfile.store key with _ | r1
    · rw [@store_kv_key_fail s.dfile key val hks] at hlp
      simp at hlp
    · obtain ⟨pk, d1⟩ := r1
      rcases hvs : d1.store val with _ | r2
      · rw [store_kv_val_fail hks hvs] at hlp
        simp at hlp
      · obtain ⟨pv, d'⟩ := r2
        by_cases hfull : n0.kvs.length = k_bpt_order - 1
        · exact absurd hfull (hroom n0 hg0)
        · rw [store_kv_ok hks hvs, if_neg hfull,
            if_pos (show ((true, pk, pv, d') :
              Bool × Nat × Nat × DataSt).1 = true from rfl)] at hlp
          have hpair := Option.some.inj hlp
          have hroot' : s'.root = s.root :=
            (congrArg (fun q : Bool × TreeSt => q.2.root) hpair).symm
          have hdfile' : s'.dfile = d' :=
            (congrArg (fun q : Bool × TreeSt => q.2.dfile) hpair).symm
          have hpages' : s'.pages = pSet s.pages pid (.leaf n0.hdr
              (n0.kvs.insertIdx
                (leafSearch viewCompare s.dfile n0.kvs key).2 ⟨pk, pv⟩)) :=
            (congrArg (fun q : Bool × TreeSt => q.2.pages) hpair).symm
          have hsorted : SortedKeys s.dfile (n0.kvs.map Kv.key)
              n0.kvs.length := hwf4 pid n0 hg0 hlf0
          obtain ⟨hposle, hlow, hhigh⟩ := leafSearch_false_spec hsorted hfalse
          obtain ⟨hldpk, hldpv, hframe, hallocmono, hwfd'⟩ :=
            store2_facts hwfd hk1 hk2 hv1 hv2 hks hvs
          have hkeyeqL : ∀ i, i < n0.kvs.length →
              loadData d' ((n0.kvs.map Kv.key).getD i 0)
                = loadData s.dfile ((n0.kvs.map Kv.key).getD i 0) := by
            intro i hi
            have h := hframe _ (wf_key_allocated hwf3 hg0 (by
              rw [← TNode.kvs_length_eq]
              exact hi))
            rwa [← TNode.kvs_keys_eq_kcs_keys] at h
          have hsearch' : searchF viewCompare s' key fuel s'.root
              = some pid := by
            rw [hroot']
            refine searchF_frame ?_ ?_ ?_ hsearch
            · intro id n hg hlfF
              rw [hpages', pGet_pSet]
              by_cases hid : id = pid
              · subst hid
                rw [hg0] at hg
                obtain rfl := Option.some.inj hg
                exact Bool.noConfusion (hlf0.symm.trans hlfF)
              · rw [if_neg hid]
                exact hg
            · intro id n hg hlfT
              rw [hpages', pGet_pSet]
              by_cases hid : id = pid
              · rw [if_pos hid]
                exact ⟨_, rfl, rfl⟩
              · rw [if_neg hid]
                exact ⟨n, hg, hlfT⟩
            · intro id n hg i hi
              rw [hdfile']
              exact hframe _ (wf_key_allocated hwf3 hg hi)
          have hpg' : pGet s'.pages pid = some (.leaf n0.hdr
              (n0.kvs.insertIdx
                (leafSearch viewCompare s.dfile n0.kvs key).2 ⟨pk, pv⟩)) := by
            rw [hpages', pGet_pSet, if_pos rfl]
          have hsortd' : SortedKeys d' (n0.kvs.map Kv.key) n0.kvs.length :=
            SortedKeys_congr hkeyeqL hsorted
          have hsorted' := SortedKeys_insert hsortd' hposle
            (show loadData d' (Kv.mk pk pv).key = key from hldpk)
            (fun i hi => by
              rw [hkeyeqL i (by omega)]
              exact hlow i hi)
            (fun i hi1 hi2 => by
              rw [hkeyeqL i hi2]
              exact hhigh i hi1 hi2)
          have hlen' : (n0.kvs.insertIdx
              (leafSearch viewCompare s.dfile n0.kvs key).2
              ⟨pk, pv⟩).length = n0.kvs.length + 1 :=
            List.length_insertIdx _ _ hposle
          have hgetpk : ((n0.kvs.insertIdx
              (leafSearch viewCompare s.dfile n0.kvs key).2
              ⟨pk, pv⟩).map Kv.key).getD
              (leafSearch viewCompare s.dfile n0.kvs key).2 0 = pk := by
            rw [map_insertIdx]
            exact getD_insertIdx_self _ 0 _ _ (by
              rw [List.length_map]
              exact hposle)
          have hfound' : leafSearch viewCompare d'
              (n0.kvs.insertIdx
                (leafSearch viewCompare s.dfile n0.kvs key).2 ⟨pk, pv⟩) key
              = (true, (leafSearch viewCompare s.dfile n0.kvs key).2) :=
            leafSearch_found_at hsorted'
              (by
                rw [hlen']
                omega)
              (by
                rw [hgetpk, hldpk]
                exact viewCompare_self key)
          unfold getF
          rw [if_neg (show ¬s'.root = ptrNull from by
              rw [hroot']
              exact hroot),
            hsearch']
          simp only [Option.elim_some]
          rw [hpg']
          simp only [Option.elim_some]
          rw [show (TNode.leaf n0.hdr (n0.kvs.insertIdx
              (leafSearch viewCompare s.dfile n0.kvs key).2 ⟨pk, pv⟩)).kvs
            = n0.kvs.insertIdx
              (leafSearch viewCompare s.dfile n0.kvs key).2 ⟨pk, pv⟩
            from rfl]
          rw [hdfile', hfound',
            if_pos (show ((true,
                (leafSearch viewCompare s.dfile n0.kvs key).2) :
              Bool × Nat).1 = true from rfl),
            show ((true, (leafSearch viewCompare s.dfile n0.kvs key).2) :
              Bool × Nat).2
              = (leafSearch viewCompare s.dfile n0.kvs key).2 from rfl,
            getD_insertIdx_self (Kv.mk pk pv) ⟨0, 0⟩ n0.kvs _ hposle,
            show (Kv.mk pk pv).val = pv from rfl, hldpv]

/-- `put` into an empty tree (null root) followed by `get`: the fresh
root leaf holds the pair and the value reads back. -/
theorem putF_nullroot_get {fuel : Nat} {s s' : TreeSt} {key val : Bytes}
    (hwf : TreeWF s) (hfuel : 0 < fuel)
    (hk1 : 0 < key.length) (hk2 : key.length ≤ k_max_kv_sz)
    (hv1 : 0 < val.length) (hv2 : val.length ≤ k_max_kv_sz)
    (hroot : s.root = ptrNull)
    (hput : putF viewCompare fuel s key val = some (true, s')) :
    getF viewCompare fuel s' key = some val := by
  obtain ⟨hwfd, hwfn, hwf3, hwf4⟩ := hwf
  unfold putF at hput
  rw [if_pos hroot] at hput
  rcases hks : s.dfile.store key with _ | r1
  · rw [@store_kv_key_fail s.dfile key val hks] at hput
    simp at hput
  · obtain ⟨pk, d1⟩ := r1
    rcases hvs : d1.store val with _ | r2
    · rw [store_kv_val_fail hks hvs] at hput
      simp at hput
    · obtain ⟨pv, d'⟩ := r2
      rw [store_kv_ok hks hvs,
        if_pos (show ((true, pk, pv, d') :
          Bool × Nat × Nat × DataSt).1 = true from rfl),
        show ((true, pk, pv, d') :
          Bool × Nat × Nat × DataSt).2.2.2 = d' from rfl,
        show ((true, pk, pv, d') :
          Bool × Nat × Nat × DataSt).2.1 = pk from rfl,
        show ((true, pk, pv, d') :
          Bool × Nat × Nat × DataSt).2.2.1 = pv from rfl] at hput
      unfold treeNodeAlloc at hput
      rcases hnf : nodeFindSpace ({ s with dfile := d' } : TreeSt).nfile
        with _ | rr
      · rw [hnf] at hput
        simp at hput
      · obtain ⟨id0, nf0⟩ := rr
        rw [hnf] at hput
        simp only [Option.elim_some] at hput
        obtain ⟨ck0, p0, hcklt, hplt, hidenc⟩ :=
          nodeFindSpaceGo_some
            (show NodeWF ({ s with dfile := d' } : TreeSt).nfile from hwfn)
            (show nodeFindSpaceGo k_nr_index_chunk
              ({ s with dfile := d' } : TreeSt).nfile = some (id0, nf0)
              from hnf)
        have hrne : ¬id0 = ptrNull := by
          rw [hidenc]
          refine ptr_encode_ne_null (by decide) ?_ ?_
          · have h1 : ck0 < 1024 := hcklt
            show ck0 < 2048
            omega
          · have h1 : p0 < 131072 := hplt
            show p0 < 536870912
            omega
        have hpair := Option.some.inj hput
        have hroot' : s'.root = id0 :=
          (congrArg (fun q : Bool × TreeSt => q.2.root) hpair).symm
        have hdfile' : s'.dfile = d' :=
          (congrArg (fun q : Bool × TreeSt => q.2.dfile) hpair).symm
        have hpages' : s'.pages = pSet s.pages id0
            (.leaf ⟨id0, ptrNull, ptrNull, ptrNull⟩ [⟨pk, pv⟩]) :=
          (congrArg (fun q : Bool × TreeSt => q.2.pages) hpair).symm
        obtain ⟨hldpk, hldpv, hframe, hmono, hwfd'⟩ :=
          store2_facts hwfd hk1 hk2 hv1 hv2 hks hvs
        obtain ⟨fuel0, rfl⟩ : ∃ f0, fuel = f0 + 1 := ⟨fuel - 1, by omega⟩
        unfold getF
        rw [if_neg (show ¬s'.root = ptrNull from by
          rw [hroot']
          exact hrne)]
        have hsearch' : searchF viewCompare s' key (fuel0 + 1) s'.root
            = some id0 := by
          rw [hroot', searchF, if_neg hrne, hpages', pGet_pSet, if_pos rfl]
          simp only [Option.elim_some]
          rw [if_pos (show (TNode.leaf ⟨id0, ptrNull, ptrNull, ptrNull⟩
            [⟨pk, pv⟩]).isLeaf = true from rfl)]
        rw [hsearch']
        simp only [Option.elim_some]
        rw [show pGet s'.pages id0 = some (.leaf
            ⟨id0, ptrNull, ptrNull, ptrNull⟩ [⟨pk, pv⟩]) from by
          rw [hpages', pGet_pSet, if_pos rfl]]
        simp only [Option.elim_some]
        have hfound' : leafSearch viewCompare d' [⟨pk, pv⟩] key
            = (true, 0) :=
          leafSearch_found_at
            (by
              intro i j hij hj
              rw [show ([(⟨pk, pv⟩ : Kv)]).length = 1 from rfl] at hj
              omega)
            (by
              rw [show ([(⟨pk, pv⟩ : Kv)]).length = 1 from rfl]
              omega)
            (by
              rw [show (([(⟨pk, pv⟩ : Kv)]).map Kv.key).getD 0 0 = pk
                from rfl, hldpk]
              exact viewCompare_self key)
        rw [show (TNode.leaf ⟨id0, ptrNull, ptrNull, ptrNull⟩
            [⟨pk, pv⟩]).kvs = [(⟨pk, pv⟩ : Kv)] from rfl,
          hdfile', hfound',
          if_pos (show ((true, 0) : Bool × Nat).1 = true from rfl),
          show ((true, 0) : Bool × Nat).2 = 0 from rfl,
          show ([(⟨pk, pv⟩ : Kv)]).getD 0 ⟨0, 0⟩ = ⟨pk, pv⟩ from rfl,
          show (Kv.mk pk pv).val = pv from rfl, hldpv]

/-- `BpTree::Iter::operator bool()`: the iterator's validity test. -/
def BIter.valid (t : BIter) : Bool :=
  if t.cursor = ptrNull then false
  else if t.cursor = t.head ∧ t.off < t.b_off then false
  else if t.cursor = t.tail ∧ t.e_off < t.off then false
  else true

theorem rangeNorm_comm (a b : Bytes) : rangeNorm a b = rangeNorm b a := by
  unfold rangeNorm
  rcases lt_trichotomy (viewCompare a b) 0 with h | h | h
  · rw [if_neg (by omega), if_pos (by rw [viewCompare_neg]; omega)]
  · rw [viewCompare_eq_zero_iff.mp h]
  · rw [if_pos h, if_neg (by rw [viewCompare_neg]; omega)]

/-! ## The claims -/

/-- **C8.**  In the data file, after any sequence of `store` and `free`
operations on blobs starting from a freshly formatted file, each
chunk's `used_pages` counter equals the number of set bits in that
chunk's allocation bitmap, ignoring the bits covered by the reserved
chunk header region (`k_data_chunk_hdr_sz` bytes, i.e. bit indices
below `k_data_chunk_hdr_sz / k_data_page_sz`; those bits — and in fact
all bits below the allocator's reserved cursor floor `off_` — are never
set). -/
theorem c8_used_pages_popcount {s : DataSt} (h : DataReach s) :
    ∀ ck, ck < k_nr_data_chunk →
      s.used ck = popRange (s.bits ck)
        (k_data_chunk_hdr_sz / k_data_page_sz) k_data_bitmap_bits := by
  intro ck hck
  obtain ⟨_, hclear, hpop⟩ := dataReach_inv h
  have hle : k_data_chunk_hdr_sz / k_data_page_sz ≤ dataOff := by
    show (16384 : Nat) ≤ dataOff
    show (16384 : Nat) ≤ 131072
    decide
  rw [hpop ck hck,
    popRange_split (s.bits ck) hle (le_of_lt dataOff_lt),
    popRange_zero (fun i _ hi => hclear ck i hi), Nat.zero_add]

/-- Witness for C8: the freshly formatted data file is reachable and
satisfies the popcount equation in chunk 0. -/
theorem c8_used_pages_popcount_witness :
    DataReach dataInit ∧
    dataInit.used 0 = popRange (dataInit.bits 0)
      (k_data_chunk_hdr_sz / k_data_page_sz) k_data_bitmap_bits := by
  have hreach : DataReach dataInit :=
    DataReach.init dataInit (fun _ _ => rfl) (fun _ => rfl) (fun _ => rfl)
  refine ⟨hreach, c8_used_pages_popcount hreach 0 ?_⟩
  show (0 : Nat) < k_nr_data_chunk
  decide

/-- A node-file state whose chunk 1 (the only chunk
`NodeFile::find_space` will ever probe when `last_chunk = 0`) is full
while chunk 2 is completely empty. -/
def exNodeStuck : NodeSt :=
  { bits := fun ck b =>
      decide (ck = 1 ∧ indexOff ≤ b ∧ b < k_index_bitmap_bits)
    lastC := fun _ => indexOff
    used := fun ck => if ck = 1 then k_index_page_per_chunk else 0
    lastChunk := 0 }

/-- **C5** (refuted: code bug).  The claim says `NodeFile::get` scans
chunks in sequence starting from `last_chunk + 1`, skipping full
chunks, and returns null only when the whole file is full.  In
`NodeFile::find_space` the loop body recomputes
`ckid = (last_chunk + 1) % k_nr_index_chunk` on every iteration — the
loop variable `i` is never used (contrast `DataFile::find_space`, which
uses `last_chunk + i`) — so the scan probes a single chunk: whenever
that one chunk is full, `get` returns `ptr_null` no matter how much
space the other 1023 chunks have. -/
theorem c5_node_scan_stuck {s : NodeSt}
    (hfull : s.used ((s.lastChunk + 1) % k_nr_index_chunk)
      = k_index_page_per_chunk) :
    nodeFindSpace s = none :=
  nodeFindSpaceGo_stuck hfull k_nr_index_chunk

/-- Witness for C5: in `exNodeStuck` the probed chunk is full, chunk 2
is empty (the file is far from full), yet allocation fails. -/
theorem c5_node_scan_stuck_witness :
    exNodeStuck.used ((exNodeStuck.lastChunk + 1) % k_nr_index_chunk)
        = k_index_page_per_chunk ∧
      exNodeStuck.used 2 = 0 ∧
      nodeFindSpace exNodeStuck = none :=
  ⟨rfl, rfl, c5_node_scan_stuck rfl⟩

/-- **C7, counterexample.**  The claim says that when `from` compares
greater than `to` *under the comparator `Cmp`*, the bounds are swapped.
The swap in `range` (`rangeNorm`, i.e. `if (from > to) std::swap`)
uses `View::operator<=>` — raw bytewise comparison — not `Cmp`: under
the reversed comparator `fun x y => viewCompare y x`, `from = [0]`
compares greater than `to = [1]`, yet the bounds are not swapped. -/
theorem c7_swap_not_by_comparator :
    0 < (fun x y => viewCompare y x) ([0] : Bytes) [1] ∧
      rangeNorm [0] [1] = ([0], [1]) := by
  constructor
  · decide
  · rw [rangeNorm, if_neg (by decide)]

/-- **C7, amended.**  What does hold, for *every* comparator: `range`
is symmetric in its two bounds, because the swap normalizes them by
the fixed bytewise order before anything else looks at them. -/
theorem c7_range_commutes (cmp : Bytes → Bytes → Int) (fuel : Nat)
    (s : TreeSt) (f t : Bytes) :
    rangeF cmp fuel s f t = rangeF cmp fuel s t f := by
  unfold rangeF
  rw [rangeNorm_comm]

/-- A freshly formatted node file. -/
def nodeInit : NodeSt :=
  { bits := fun _ _ => false
    lastC := fun _ => indexOff
    used := fun _ => 0
    lastChunk := 0 }

/-- A data file in which every chunk's `used_pages` is at capacity, so
`DataFile::find_space` skips every chunk and `store` returns null. -/
def exFullData : DataSt :=
  { dataInit with used := fun _ => k_data_page_per_chunk }

/-- Every `store` into `exFullData` fails. -/
theorem exFullData_store_none (data : Bytes) :
    exFullData.store data = none :=
  DataSt.store_none (fun ck _ => by
    show k_data_page_per_chunk + size_to_page data.length
      ≥ k_data_page_per_chunk
    omega)

/-- An empty tree (null root) over the full data file. -/
def exEmptyTree : TreeSt :=
  { pages := []
    nfile := nodeInit
    dfile := exFullData
    root := ptrNull
    nrkv := 0 }

/-- A tree whose root is a single (empty) leaf at page 5, over the full
data file. -/
def exLeafTree : TreeSt :=
  { pages := [(5, .leaf ⟨5, ptrNull, ptrNull, ptrNull⟩ [])]
    nfile := nodeInit
    dfile := exFullData
    root := 5
    nrkv := 0 }

/-- **C6, counterexample.**  With a null root, `put` runs
`auto [ok, pk, pv] = store_kv(key, val); bassert(ok, "can't set
key/val")`: when the data file is out of space, `store_kv` returns
`ok = false` and the `bassert` kills the process (modelled `none`)
instead of returning `false` — the claim's "this holds in every state,
including when the tree is empty (null root)" is false. -/
theorem c6_null_root_abort :
    exEmptyTree.root = ptrNull ∧
      putF viewCompare 1 exEmptyTree [0] [0] = none := by
  refine ⟨rfl, ?_⟩
  unfold putF
  rw [if_pos (show exEmptyTree.root = ptrNull from rfl),
    show exEmptyTree.dfile = exFullData from rfl,
    store_kv_key_fail (exFullData_store_none [0])]
  rfl

/-- **C6, amended.**  In a non-empty tree, allocation failure is indeed
non-fatal: if `search` lands on leaf `pid`, the key is not already
present, and `store_kv` fails, then `put` returns `false` (with only
the data file's partial mutation kept) rather than aborting. -/
theorem c6_alloc_failure_nonfatal {cmp : Bytes → Bytes → Int}
    {fuel : Nat} {s : TreeSt} {pid : Nat} {node : TNode} {key val : Bytes}
    (hroot : ¬s.root = ptrNull)
    (hsearch : searchF cmp s key fuel s.root = some pid)
    (hpage : pGet s.pages pid = some node)
    (hdup : (leafSearch cmp s.dfile node.kvs key).1 = false)
    (hfail : (store_kv s.dfile key val).1 = false) :
    putF cmp fuel s key val =
      some (false, { s with dfile := (store_kv s.dfile key val).2.2.2 }) := by
  unfold putF
  rw [if_neg hroot, hsearch]
  simp only [Option.elim_some]
  unfold leafPut
  rw [hpage]
  simp only [Option.elim_some, hdup, hfail, Bool.false_eq_true, if_false]

/-- Witness for the amended C6: in `exLeafTree` the data file is full,
the single-leaf root is found, `store_kv` fails, and `put` returns
`false` without aborting. -/
theorem c6_alloc_failure_nonfatal_witness :
    putF viewCompare 1 exLeafTree [0] [0] =
      some (false,
        { exLeafTree with
            dfile := (store_kv exLeafTree.dfile [0] [0]).2.2.2 }) :=
  c6_alloc_failure_nonfatal (by decide) rfl rfl rfl
    (by show (store_kv exFullData [0] [0]).1 = false
        rw [store_kv_key_fail (exFullData_store_none [0])])

/-- **C3.**  If `search` lands on leaf `pid` and `leaf_search` finds
`key` there (the key is present, with stored value
`v1 = load_data(kv[pos].val)`), then `put(key, v2)` returns `false`
with the store state *literally unchanged* — `leaf_put` returns before
`store_kv` is ever called, so no blob is stored and `nr_kv`/`items()`
cannot change — and `get(key)` returns `v1`. -/
theorem c3_duplicate_put_rejected {cmp : Bytes → Bytes → Int}
    {fuel : Nat} {s : TreeSt} {pid : Nat} {node : TNode} {key : Bytes}
    (v2 : Bytes)
    (hroot : ¬s.root = ptrNull)
    (hsearch : searchF cmp s key fuel s.root = some pid)
    (hpage : pGet s.pages pid = some node)
    (hfound : (leafSearch cmp s.dfile node.kvs key).1 = true) :
    putF cmp fuel s key v2 = some (false, s) ∧
      getF cmp fuel s key = some (loadData s.dfile
        ((node.kvs.getD (leafSearch cmp s.dfile node.kvs key).2
          ⟨0, 0⟩).val)) := by
  constructor
  · unfold putF
    rw [if_neg hroot, hsearch]
    simp only [Option.elim_some]
    unfold leafPut
    rw [hpage]
    simp only [Option.elim_some, hfound, if_true]
  · unfold getF
    rw [if_neg hroot, hsearch]
    simp only [Option.elim_some]
    rw [hpage]
    simp only [Option.elim_some, hfound, if_true]

/-- The data pointer of the key blob `[7]` (length 1, chunk 0, first
allocatable page). -/
def exPk : Nat := ptr_encode 1 0 dataOff

/-- The data pointer of the value blob `[9]`. -/
def exPv : Nat := ptr_encode 1 0 (dataOff + 1)

/-- A data file holding exactly the two one-byte blobs `[7]` (the key,
at `exPk`) and `[9]` (the value, at `exPv`). -/
def exDataOne : DataSt :=
  { bits := fun ck b => decide (ck = 0 ∧ (b = dataOff ∨ b = dataOff + 1))
    lastC := fun _ => dataOff + 2
    used := fun ck => if ck = 0 then 2 else 0
    lastChunk := 0
    file := fun off => if off = data_file_off exPk then 7
      else if off = data_file_off exPv then 9 else 0 }

/-- A tree holding the single pair `[7] ↦ [9]` in a root leaf at
page 5. -/
def exOneKeyTree : TreeSt :=
  { pages := [(5, .leaf ⟨5, ptrNull, ptrNull, ptrNull⟩ [⟨exPk, exPv⟩])]
    nfile := nodeInit
    dfile := exDataOne
    root := 5
    nrkv := 1 }

/-- Witness for C3: re-putting the present key `[7]` with a new value
returns `false` and leaves the state unchanged, and `get [7]` still
returns `[9]`. -/
theorem c3_duplicate_put_rejected_witness :
    putF viewCompare 1 exOneKeyTree [7] [1, 2] = some (false, exOneKeyTree) ∧
      getF viewCompare 1 exOneKeyTree [7] = some [9] := by
  have h := @c3_duplicate_put_rejected viewCompare 1 exOneKeyTree 5
    (.leaf ⟨5, ptrNull, ptrNull, ptrNull⟩ [⟨exPk, exPv⟩])
    [7] [1, 2] (by decide) rfl rfl (by rfl)
  refine ⟨h.1, ?_⟩
  rw [h.2]
  rfl

/-- **C10.**  During `put` of a new key into a non-empty tree, if
`data_->store(key)` succeeds (yielding pointer `pk` and data-file
state `d1`) but `data_->store(val)` returns null, then `put` returns
`false` with the data file left exactly at `d1`: the key blob's bitmap
bits are still set and the chunk's `used_pages` keeps the increment —
`store_kv` returns `{false, pk, ptr_null}` without freeing `pk`, and
`leaf_put` just returns `false` (no rollback). -/
theorem c10_key_blob_leak {cmp : Bytes → Bytes → Int} {fuel : Nat}
    {s : TreeSt} {pid : Nat} {node : TNode} {key val : Bytes} {pk : Nat}
    {d1 : DataSt}
    (hwf : DataWF s.dfile) (hlen : key.length ≤ k_max_kv_sz)
    (hroot : ¬s.root = ptrNull)
    (hsearch : searchF cmp s key fuel s.root = some pid)
    (hpage : pGet s.pages pid = some node)
    (hdup : (leafSearch cmp s.dfile node.kvs key).1 = false)
    (hkey : s.dfile.store key = some (pk, d1))
    (hval : d1.store val = none) :
    putF cmp fuel s key val = some (false, { s with dfile := d1 }) ∧
      (∀ j, ptr_id pk ≤ j → j < ptr_id pk + size_to_page key.length →
        d1.bits (ptr_chunk pk) j = true) ∧
      d1.used (ptr_chunk pk)
        = s.dfile.used (ptr_chunk pk) + size_to_page key.length := by
  have hsk := store_kv_val_fail hkey hval
  refine ⟨?_, ?_, ?_⟩
  · unfold putF
    rw [if_neg hroot, hsearch]
    simp only [Option.elim_some]
    unfold leafPut
    rw [hpage]
    simp only [Option.elim_some, hdup, Bool.false_eq_true, if_false, hsk]
  · obtain ⟨ck, p, henc, hckeq, hpid, hlen', hcklt, hple, hroom, hclear,
      hguard, hbits, hused, hlastc, hwf', hfile⟩ :=
      DataSt.store_spec hwf hlen hkey
    intro j hj1 hj2
    rw [hpid] at hj1 hj2
    rw [hckeq]
    have hb : d1.bits ck j
        = if p ≤ j ∧ j < p + size_to_page key.length then true
          else s.dfile.bits ck j := by
      rw [hbits]
      simp
    rw [hb, if_pos ⟨hj1, hj2⟩]
  · obtain ⟨ck, p, henc, hckeq, hpid, hlen', hcklt, hple, hroom, hclear,
      hguard, hbits, hused, hlastc, hwf', hfile⟩ :=
      DataSt.store_spec hwf hlen hkey
    rw [hckeq, hused]
    simp

/-- A data file with exactly one free page (bit `dataOff` of chunk 0)
whose chunk-0 `used_pages` admits one more allocation; every other
chunk is at capacity. -/
def exAlmostFull : DataSt :=
  { bits := fun ck b => decide (ck = 0 ∧ ¬b = dataOff)
    lastC := fun _ => dataOff
    used := fun ck => if ck = 0 then k_data_page_per_chunk - 2
      else k_data_page_per_chunk
    lastChunk := 0
    file := fun _ => 0 }

/-- An empty-leaf tree over `exAlmostFull`: the key blob of the next
`put` will take the last page, and the value blob will fail. -/
def exLeakTree : TreeSt :=
  { pages := [(5, .leaf ⟨5, ptrNull, ptrNull, ptrNull⟩ [])]
    nfile := nodeInit
    dfile := exAlmostFull
    root := 5
    nrkv := 0 }

/-- The pointer the key blob `[7]` gets in `exAlmostFull`. -/
def exLeakPk : Nat := ((exAlmostFull.store [7]).getD (0, exAlmostFull)).1

/-- The data-file state after storing the key blob `[7]`. -/
def exLeakD1 : DataSt := ((exAlmostFull.store [7]).getD (0, exAlmostFull)).2

/-- Witness for C10: `put [7] [8]` into `exLeakTree` stores the key
blob, fails on the value blob, returns `false`, and the key blob's
page stays allocated. -/
theorem c10_key_blob_leak_witness :
    putF viewCompare 1 exLeakTree [7] [8]
        = some (false, { exLeakTree with dfile := exLeakD1 }) ∧
      (∀ j, ptr_id exLeakPk ≤ j →
        j < ptr_id exLeakPk + size_to_page ([7] : Bytes).length →
        exLeakD1.bits (ptr_chunk exLeakPk) j = true) ∧
      exLeakD1.used (ptr_chunk exLeakPk)
        = exAlmostFull.used (ptr_chunk exLeakPk)
          + size_to_page ([7] : Bytes).length :=
  c10_key_blob_leak
    (fun _ => ⟨Nat.le_refl dataOff,
      by show dataOff ≤ k_data_bitmap_bits; decide⟩) (by decide) (by decide)
    rfl rfl rfl rfl rfl

/-- A node's `count` (the entry-array length). -/
def nodeCount : TNode → Nat
  | .leaf _ kvs => kvs.length
  | .intl _ kcs => kcs.length

/-- The claimed invariant of C9: every node other than the root has
`count > (M + 1) / 2` (`leaf_overhalf`/`intl_overhalf` with
`M = k_bpt_order`). -/
def overhalfOk (s : TreeSt) : Bool :=
  s.pages.all (fun p =>
    decide (p.1 = s.root) ∨ decide ((k_bpt_order + 1) / 2 < nodeCount p.2))

/-- A data file holding 502 one-byte blobs: the key and value blobs of
251 pairs `[i] ↦ [i]`, with the key of pair `i` at page
`dataOff + 2 * i` and its value right after. -/
def exBigData : DataSt :=
  { bits := fun ck b => decide (ck = 0 ∧ dataOff ≤ b ∧ b < dataOff + 502)
    lastC := fun _ => dataOff + 502
    used := fun ck => if ck = 0 then 502 else 0
    lastChunk := 0
    file := fun off =>
      if off < k_data_hdr_sz + dataOff * k_data_page_sz then 0
      else (off - (k_data_hdr_sz + dataOff * k_data_page_sz)) / 128 }

/-- The 251 entries `[i] ↦ [i]`, `i < 251`, of the full root leaf. -/
def exBigKvs : List Kv :=
  (List.range 251).map (fun i =>
    ⟨ptr_encode 1 0 (dataOff + 2 * i), ptr_encode 1 0 (dataOff + 2 * i + 1)⟩)

/-- A tree whose root leaf (page 5) is full: 251 = M - 1 entries. -/
def exBigTree : TreeSt :=
  { pages := [(5, .leaf ⟨5, ptrNull, ptrNull, ptrNull⟩ exBigKvs)]
    nfile := nodeInit
    dfile := exBigData
    root := 5
    nrkv := 251 }

/-- **C9, counterexample.**  `exBigTree` satisfies the claimed
invariant (its only node is the root).  Inserting a 252nd key
succeeds — and the invariant is now broken: `leaf_split` leaves the
old leaf with `252 / 2 = 125` entries under the new root, and
`125 > (M + 1) / 2 = 126` is false. -/
theorem c9_put_breaks_overhalf :
    overhalfOk exBigTree = true ∧
      (putF viewCompare 1 exBigTree [251] [251]).map
        (fun r => (r.1, overhalfOk r.2)) = some (true, false) :=
  ⟨rfl, rfl⟩

/-- **C9, amended.**  What `leaf_split` actually guarantees: splitting
a full leaf (count `M - 1`) leaves the original page with
`(M - 1) / 2 = 125` entries and the sibling with
`M - (M - 1) / 2 = 127`; the left count fails the over-half test
`count > (M + 1) / 2`, so the claimed bound is off by two on the left
node (the true lower bound after a split is `(M - 1) / 2`). -/
theorem c9_leaf_split_sizes {s : TreeSt} {pid : Nat} {hdr : NodeHdr}
    {kvs : List Kv} {pos : Nat} {kv : Kv} {s' : TreeSt} {sibId : Nat}
    (hsplit : leafSplit s pid hdr kvs pos kv = some (s', sibId))
    (hlen : kvs.length = k_bpt_order - 1) (hpos : pos ≤ kvs.length)
    (hne : ¬pid = sibId) :
    (∃ lHdr, pGet s'.pages pid
      = some (.leaf lHdr ((kvs.insertIdx pos kv).take (kvs.length / 2)))) ∧
      (∃ rHdr, pGet s'.pages sibId
        = some (.leaf rHdr
          ((kvs.insertIdx pos kv).drop (kvs.length / 2)))) ∧
      ((kvs.insertIdx pos kv).take (kvs.length / 2)).length
        = (k_bpt_order - 1) / 2 ∧
      ((kvs.insertIdx pos kv).drop (kvs.length / 2)).length
        = k_bpt_order - (k_bpt_order - 1) / 2 ∧
      ¬((k_bpt_order + 1) / 2 < (k_bpt_order - 1) / 2) := by
  have hlen' : (kvs.insertIdx pos kv).length = kvs.length + 1 :=
    List.length_insertIdx pos kvs hpos
  unfold leafSplit at hsplit
  rcases halloc : treeNodeAlloc s with _ | r
  · rw [halloc] at hsplit
    exact absurd hsplit (by simp)
  · rw [halloc] at hsplit
    simp only [Option.elim_some, Option.some.injEq, Prod.mk.injEq] at hsplit
    obtain ⟨hs', hsib⟩ := hsplit
    subst hsib
    refine ⟨?_, ?_, ?_, ?_, ?_⟩
    · rw [← hs', pGet_pSet, if_neg hne, pGet_pSet, if_pos rfl]
      exact ⟨_, rfl⟩
    · rw [← hs', pGet_pSet, if_pos rfl]
      exact ⟨_, rfl⟩
    · rw [List.length_take, hlen', hlen]
      show min ((k_bpt_order - 1) / 2) (k_bpt_order - 1 + 1)
        = (k_bpt_order - 1) / 2
      decide
    · rw [List.length_drop, hlen', hlen]
      show k_bpt_order - 1 + 1 - (k_bpt_order - 1) / 2
        = k_bpt_order - (k_bpt_order - 1) / 2
      decide
    · decide

/-- The entry array of `node` after `intl_merge_rhs` appends `r`'s
entries: slot `count - 1` gets the parent separator's key (keeping its
child), slots `count + j` get `r`'s entries — except the last appended
slot's key, which the keys loop (`j < r->count - 1`) never writes; on a
fresh page it is the zero fill (modelled `0`, never a meaningful
separator since an interior node with count `c` uses keys
`0 … c - 2`). -/
def intlMergeEntries (nodeKcs rKcs : List Kc) (sep : Nat) : List Kc :=
  nodeKcs.take (nodeKcs.length - 1)
    ++ ⟨sep, (nodeKcs.getD (nodeKcs.length - 1) ⟨0, 0⟩).child⟩
    :: (rKcs.take (rKcs.length - 1)
        ++ (rKcs.drop (rKcs.length - 1)).map (fun kc => ⟨0, kc.child⟩))

/-- `BpTree::intl_merge_rhs(p, node, r, idx)` followed by its final
`tree_del(node)`: append `r`'s entries to `node`, reparent the migrated
children to `node`, then *unlink `node` from the sibling list and free
`node`'s page* (`tree_del(node)` — the C code frees the merged-into
node, not `r`).  The freed page's bytes persist on disk, so the page
map keeps its content; only the allocator state changes. -/
def intlMergeRhs (s : TreeSt) (parentId nodeId rId : Nat) (idx : Nat) :
    Option TreeSt :=
  (pGet s.pages parentId).elim none (fun p =>
    (pGet s.pages nodeId).elim none (fun node =>
      (pGet s.pages rId).elim none (fun r =>
        let merged := intlMergeEntries node.kcs r.kcs
          (p.kcs.getD idx ⟨0, 0⟩).key
        let ps1 := pSet s.pages nodeId (.intl node.hdr merged)
        let ps2 := reparent ps1 (r.kcs.map Kc.child) node.hdr.self
        let ps3 :=
          if node.hdr.prev = ptrNull then ps2
          else
            (pGet ps2 node.hdr.prev).elim ps2
              (fun pv => pSet ps2 node.hdr.prev (pv.setNext node.hdr.next))
        let ps4 :=
          if node.hdr.next = ptrNull then ps3
          else
            (pGet ps3 node.hdr.next).elim ps3
              (fun nx => pSet ps3 node.hdr.next (nx.setPrev node.hdr.prev))
        some { s with
          pages := ps4
          nfile := s.nfile.free node.hdr.self })))

/-- The result of splitting `exBigTree`'s full root leaf (insert
position 251; the inserted entry's pointers are irrelevant here). -/
def exSplit : TreeSt × Nat :=
  (leafSplit exBigTree 5 ⟨5, ptrNull, ptrNull, ptrNull⟩ exBigKvs 251
    ⟨0, 0⟩).getD (exBigTree, 0)

/-- Witness for the amended C9, on `exBigTree`'s root leaf. -/
theorem c9_leaf_split_sizes_witness :
    (∃ lHdr, pGet exSplit.1.pages 5
      = some (.leaf lHdr
        ((exBigKvs.insertIdx 251 ⟨0, 0⟩).take (exBigKvs.length / 2)))) ∧
      (∃ rHdr, pGet exSplit.1.pages exSplit.2
        = some (.leaf rHdr
          ((exBigKvs.insertIdx 251 ⟨0, 0⟩).drop (exBigKvs.length / 2)))) ∧
      ((exBigKvs.insertIdx 251 ⟨0, 0⟩).take (exBigKvs.length / 2)).length
        = (k_bpt_order - 1) / 2 ∧
      ((exBigKvs.insertIdx 251 ⟨0, 0⟩).drop (exBigKvs.length / 2)).length
        = k_bpt_order - (k_bpt_order - 1) / 2 ∧
      ¬((k_bpt_order + 1) / 2 < (k_bpt_order - 1) / 2) :=
  @c9_leaf_split_sizes exBigTree 5 ⟨5, ptrNull, ptrNull, ptrNull⟩ exBigKvs
    251 ⟨0, 0⟩ exSplit.1 exSplit.2 rfl rfl (by decide) (by decide)

theorem NodeSt.free_bits_self (s : NodeSt) (id : Nat) :
    (s.free id).bits (ptr_chunk id) (ptr_id id) = false := by
  show (if ptr_chunk id = ptr_chunk id then
    ((nodeChunk s (ptr_chunk id)).unmask (ptr_id id) 1).bits
    else s.bits (ptr_chunk id)) (ptr_id id) = false
  rw [if_pos rfl]
  exact if_pos ⟨Nat.le_refl _, Nat.lt_succ_self _⟩

theorem NodeSt.free_bits_other (s : NodeSt) (id : Nat) {ck j : Nat}
    (h : ¬(ck = ptr_chunk id ∧ j = ptr_id id)) :
    (s.free id).bits ck j = s.bits ck j := by
  show (if ck = ptr_chunk id then
    ((nodeChunk s (ptr_chunk id)).unmask (ptr_id id) 1).bits
    else s.bits ck) j = s.bits ck j
  by_cases hck : ck = ptr_chunk id
  · rw [if_pos hck, hck]
    have hj : ¬j = ptr_id id := fun hj => h ⟨hck, hj⟩
    exact if_neg (by omega)
  · rw [if_neg hck]

theorem NodeSt.free_used_self (s : NodeSt) (id : Nat) :
    (s.free id).used (ptr_chunk id) = s.used (ptr_chunk id) - 1 := by
  show (if ptr_chunk id = ptr_chunk id then s.used (ptr_chunk id) - 1
    else s.used (ptr_chunk id)) = s.used (ptr_chunk id) - 1
  rw [if_pos rfl]

/-- **C4** (refuted: code bug).  The claim says the right sibling `r`
is unlinked and `r`'s page freed while the merged-into node stays
allocated.  `intl_merge_rhs` ends with `tree_del(node)` — it unlinks
and frees **`node`**, the merged-into node that now holds all the
entries (contrast `leaf_merge_rhs`, which correctly ends with
`tree_del(r)`).  After the merge the node file has `node`'s page's bit
cleared and its chunk's `used_pages` decremented, while `r`'s page —
never passed to `tree_del` — keeps its allocation bit. -/
theorem c4_merge_frees_merged_node {s : TreeSt}
    {parentId nodeId rId idx : Nat} {p node r : TNode}
    (hp : pGet s.pages parentId = some p)
    (hn : pGet s.pages nodeId = some node)
    (hr : pGet s.pages rId = some r)
    (hself : node.hdr.self = nodeId) :
    ∃ s', intlMergeRhs s parentId nodeId rId idx = some s' ∧
      s'.nfile = s.nfile.free nodeId ∧
      s'.nfile.bits (ptr_chunk nodeId) (ptr_id nodeId) = false ∧
      s'.nfile.used (ptr_chunk nodeId)
        = s.nfile.used (ptr_chunk nodeId) - 1 ∧
      ∀ ck j, ¬(ck = ptr_chunk nodeId ∧ j = ptr_id nodeId) →
        s'.nfile.bits ck j = s.nfile.bits ck j := by
  have hrun : intlMergeRhs s parentId nodeId rId idx
      = some ((intlMergeRhs s parentId nodeId rId idx).getD s) := by
    unfold intlMergeRhs
    rw [hp, hn, hr]
    rfl
  have hnf0 : ((intlMergeRhs s parentId nodeId rId idx).getD s).nfile
      = s.nfile.free node.hdr.self := by
    unfold intlMergeRhs
    rw [hp, hn, hr]
    rfl
  have hnf : ((intlMergeRhs s parentId nodeId rId idx).getD s).nfile
      = s.nfile.free nodeId :=
    hnf0.trans (congrArg (fun x => NodeSt.free s.nfile x) hself)
  refine ⟨_, hrun, hnf, ?_, ?_, ?_⟩
  · rw [hnf]
    exact NodeSt.free_bits_self _ _
  · rw [hnf]
    exact NodeSt.free_used_self _ _
  · intro ck j h
    rw [hnf]
    exact NodeSt.free_bits_other _ _ h

/-- A three-level tree in which the interior node at page 100 (two
children) is to be merged with its right sibling at page 200, their
parent (the root) at page 300 holding the separator between them. -/
def exMergeTree : TreeSt :=
  { pages := [
      (300, .intl ⟨300, ptrNull, ptrNull, ptrNull⟩ [⟨exPk, 100⟩, ⟨0, 200⟩]),
      (100, .intl ⟨100, 300, ptrNull, 200⟩ [⟨exPk, 10⟩, ⟨0, 11⟩]),
      (200, .intl ⟨200, 300, 100, ptrNull⟩ [⟨exPv, 12⟩, ⟨0, 13⟩]),
      (10, .leaf ⟨10, 100, ptrNull, 11⟩ []),
      (11, .leaf ⟨11, 100, 10, 12⟩ []),
      (12, .leaf ⟨12, 200, 11, 13⟩ []),
      (13, .leaf ⟨13, 200, 12, ptrNull⟩ [])]
    nfile :=
      { bits := fun ck b => decide (ck = 0 ∧
          (b = 10 ∨ b = 11 ∨ b = 12 ∨ b = 13 ∨ b = 100 ∨ b = 200 ∨ b = 300))
        lastC := fun _ => indexOff
        used := fun ck => if ck = 0 then 7 else 0
        lastChunk := 0 }
    dfile := exDataOne
    root := 300
    nrkv := 0 }

/-- The reversed bytewise comparator — a legitimate `Cmp`
instantiation (a strict total order on byte strings). -/
def cmpRev : Bytes → Bytes → Int := fun x y => viewCompare y x

/-- A data file holding the four one-byte blobs of the two pairs
`[1] ↦ [1]` and `[0] ↦ [0]` (key/value blobs at pages
`dataOff … dataOff + 3`). -/
def exRevData : DataSt :=
  { bits := fun ck b => decide (ck = 0 ∧ dataOff ≤ b ∧ b < dataOff + 4)
    lastC := fun _ => dataOff + 4
    used := fun ck => if ck = 0 then 4 else 0
    lastChunk := 0
    file := fun off =>
      if off = k_data_hdr_sz + dataOff * k_data_page_sz then 1
      else if off = k_data_hdr_sz + (dataOff + 1) * k_data_page_sz then 1
      else 0 }

/-- A tree built under `cmpRev`: the root leaf stores `[1]` before
`[0]` (ascending in `cmpRev`'s order). -/
def exRevTree : TreeSt :=
  { pages := [(5, .leaf ⟨5, ptrNull, ptrNull, ptrNull⟩
      [⟨ptr_encode 1 0 dataOff, ptr_encode 1 0 (dataOff + 1)⟩,
       ⟨ptr_encode 1 0 (dataOff + 2), ptr_encode 1 0 (dataOff + 3)⟩])]
    nfile := nodeInit
    dfile := exRevData
    root := 5
    nrkv := 2 }

/-- **C2** (refuted: code bug).  Under the comparator `cmpRev` the
bounds `from = [1] ≤ to = [0]` are already in comparator order, and
both stored keys `[1]`, `[0]` are present and lie inside `[from, to]`.
But `range` swaps its bounds by the *raw byte* order
(`if (from > to) std::swap`, cf. C7), locating `b_off = 1 > e_off = 0`
on the single leaf; the returned iterator fails its own validity test
(`cursor_ == tail_ && off_ > e_off_`) before yielding anything —
`range` returns the empty sequence instead of exactly the two present
keys in range. -/
theorem c2_range_misses_present_keys :
    cmpRev [1] [0] ≤ 0 ∧
      containsF cmpRev 1 exRevTree [1] = some true ∧
      containsF cmpRev 1 exRevTree [0] = some true ∧
      (cmpRev [1] [1] ≤ 0 ∧ cmpRev [1] [0] ≤ 0) ∧
      (cmpRev [1] [0] ≤ 0 ∧ cmpRev [0] [0] ≤ 0) ∧
      (rangeF cmpRev 1 exRevTree [1] [0]).map BIter.valid = some false :=
  ⟨by decide, rfl, rfl, ⟨by decide, by decide⟩, ⟨by decide, by decide⟩,
    rfl⟩

/-- Witness for C4: merging node 100 with its right sibling 200 in
`exMergeTree` frees page 100 (the merged-into node) and leaves page
200's allocation bit set. -/
theorem c4_merge_frees_merged_node_witness :
    (∃ s', intlMergeRhs exMergeTree 300 100 200 0 = some s' ∧
      s'.nfile = exMergeTree.nfile.free 100 ∧
      s'.nfile.bits (ptr_chunk 100) (ptr_id 100) = false ∧
      s'.nfile.used (ptr_chunk 100)
        = exMergeTree.nfile.used (ptr_chunk 100) - 1 ∧
      ∀ ck j, ¬(ck = ptr_chunk 100 ∧ j = ptr_id 100) →
        s'.nfile.bits ck j = exMergeTree.nfile.bits ck j) ∧
      ¬(ptr_chunk 200 = ptr_chunk 100 ∧ ptr_id 200 = ptr_id 100) ∧
      exMergeTree.nfile.bits (ptr_chunk 200) (ptr_id 200) = true :=
  ⟨c4_merge_frees_merged_node rfl rfl rfl rfl, by decide, by decide⟩

end Bkv
